import Mathlib

/-!
Verification development for the trustify ingestion core.

This file gives a shallow embedding of the parts of the trustify code base
relevant to its specification:

* the Purl identifier kernel (`src/common/src/purl.rs`): chained UUIDv5
  derivation of the (package, version, qualified) identifier triple,
  rendering of purls, and a qualifier map ordered by key;
* the SPDX relationship translation and ingest walk
  (`src/modules/ingestor/src/graph/sbom/spdx.rs`);
* the SPDX license-expression repair (`fix_license` in the same file);
* the importer service with optimistic revision locking
  (`src/modules/importer/src/service.rs`).

Machine integers are modelled as `Nat` with explicit reduction modulo
`2 ^ 32` where the Rust code relies on wrapping 32-bit arithmetic (the
SHA-1 core). Byte strings are `List Nat` with each element below 256.
-/

/-! ## Bytes, SHA-1 and UUIDv5

The `uuid` crate's `Uuid::new_v5` is the RFC 4122 name-based UUID: SHA-1 of
the namespace bytes followed by the name bytes, truncated to 16 bytes, with
the version nibble forced to 5 and the variant bits forced to RFC 4122.
-/

/-- A UUID, as its 16-byte big-endian byte sequence. -/

abbrev Uuid := List Nat

/-- 32-bit left rotation on a `Nat` holding a 32-bit word. -/
def rotl (k n : Nat) : Nat := ((n <<< k) ||| (n >>> (32 - k))) % 4294967296

/-- Big-endian bytes (most significant first) of an 8-byte quantity. -/
def be8 (n : Nat) : List Nat :=
  (List.range 8).map (fun i => (n >>> ((7 - i) * 8)) % 256)

/-- Big-endian bytes of a 32-bit word. -/
def wordBytes (n : Nat) : List Nat :=
  [(n >>> 24) % 256, (n >>> 16) % 256, (n >>> 8) % 256, n % 256]

/-- SHA-1 message padding: `0x80`, zeros to 56 mod 64, 8-byte bit length. -/
def sha1Pad (msg : List Nat) : List Nat :=
  msg ++ [0x80] ++ List.replicate ((119 - msg.length % 64) % 64) 0
    ++ be8 (msg.length * 8)

/-- Big-endian word value of a (4-)byte list. -/
def beWord (b : List Nat) : Nat := b.foldl (fun acc x => acc * 256 + x) 0

/-- The sixteen 32-bit words of a 64-byte chunk. -/
def chunkWords (c : List Nat) : List Nat :=
  (List.range 16).map (fun i => beWord ((c.drop (4 * i)).take 4))

/-- Extend sixteen words to the eighty words of the SHA-1 message schedule. -/
def extendWords (w : List Nat) : List Nat :=
  (List.range 64).foldl
    (fun ws _ =>
      let n := ws.length
      ws ++ [rotl 1 ((ws.getD (n - 3) 0) ^^^ (ws.getD (n - 8) 0)
        ^^^ (ws.getD (n - 14) 0) ^^^ (ws.getD (n - 16) 0))])
    w

/-- One SHA-1 round. -/
def sha1Round (ws : List Nat) (st : Nat × Nat × Nat × Nat × Nat) (i : Nat) :
    Nat × Nat × Nat × Nat × Nat :=
  let (a, b, c, d, e) := st
  let f :=
    if i < 20 then (b &&& c) ||| ((b ^^^ 4294967295) &&& d)
    else if i < 40 then b ^^^ c ^^^ d
    else if i < 60 then (b &&& c) ||| (b &&& d) ||| (c &&& d)
    else b ^^^ c ^^^ d
  let k :=
    if i < 20 then 0x5A827999
    else if i < 40 then 0x6ED9EBA1
    else if i < 60 then 0x8F1BBCDC
    else 0xCA62C1D6
  let temp := (rotl 5 a + f + e + k + ws.getD i 0) % 4294967296
  (temp, a, rotl 30 b, c, d)

/-- Process one 64-byte chunk, updating the five hash words. -/
def sha1Chunk (h : Nat × Nat × Nat × Nat × Nat) (c : List Nat) :
    Nat × Nat × Nat × Nat × Nat :=
  let ws := extendWords (chunkWords c)
  let (a, b, c', d, e) := (List.range 80).foldl (sha1Round ws) h
  let (h0, h1, h2, h3, h4) := h
  ((h0 + a) % 4294967296, (h1 + b) % 4294967296, (h2 + c') % 4294967296,
   (h3 + d) % 4294967296, (h4 + e) % 4294967296)

/-- Cut a byte list into 64-byte chunks; the fuel, one unit per byte,
always suffices. -/
def toChunksFuel : Nat → List Nat → List (List Nat)
  | 0, _ => []
  | _, [] => []
  | fuel + 1, l => (l.take 64) :: toChunksFuel fuel (l.drop 64)

/-- Cut a byte list into 64-byte chunks. -/
def toChunks (l : List Nat) : List (List Nat) := toChunksFuel l.length l

/-- SHA-1 of a byte sequence, as its 20-byte digest. -/
def sha1 (msg : List Nat) : List Nat :=
  let (h0, h1, h2, h3, h4) :=
    (toChunks (sha1Pad msg)).foldl sha1Chunk
      (0x67452301, 0xEFCDAB89, 0x98BADCFE, 0x10325476, 0xC3D2E1F0)
  wordBytes h0 ++ wordBytes h1 ++ wordBytes h2 ++ wordBytes h3 ++ wordBytes h4

/-- RFC 4122 §4.3 name-based UUID (SHA-1 variant), as in `Uuid::new_v5`:
hash the namespace bytes followed by the name bytes, keep 16 bytes, force
the version nibble to `5` and the variant to RFC 4122. -/
def newV5 (ns : Uuid) (data : List Nat) : Uuid :=
  let h := sha1 (ns ++ data)
  (List.range 16).map (fun i =>
    if i = 6 then (h.getD 6 0) % 16 + 0x50
    else if i = 8 then (h.getD 8 0) % 64 + 0x80
    else h.getD i 0)

/-- UTF-8 encoding of one character (`str::as_bytes` on the Rust side). -/
def utf8Char (c : Char) : List Nat :=
  let n := c.toNat
  if n < 0x80 then [n]
  else if n < 0x800 then [0xC0 + n / 64, 0x80 + n % 64]
  else if n < 0x10000 then
    [0xE0 + n / 4096, 0x80 + (n / 64) % 64, 0x80 + n % 64]
  else
    [0xF0 + n / 262144, 0x80 + (n / 4096) % 64, 0x80 + (n / 64) % 64,
     0x80 + n % 64]

/-- UTF-8 bytes of a string. -/
def utf8 (s : String) : List Nat := (s.data.map utf8Char).flatten

/-! ## The Purl identifier kernel (`src/common/src/purl.rs`) -/

/-- The fixed 16-byte namespace constant `NAMESPACE` of `purl.rs`. -/
def NAMESPACE : Uuid :=
  [0x37, 0x38, 0xb4, 0x3d, 0xfd, 0x03, 0x4a, 0x9d,
   0x84, 0x9c, 0x48, 0x9b, 0xec, 0x61, 0x0f, 0x06]

/-- The `Purl` struct. The Rust field `namespace` is a reserved word in
Lean and is called `nspace` here; `qualifiers` is the `BTreeMap` of the
Rust struct, represented as its key-sorted association list. -/
structure Purl where
  ty : String
  nspace : Option String
  name : String
  version : Option String
  qualifiers : List (String × String)
deriving DecidableEq, Repr

namespace Purl

/-- Rust `Purl::package_uuid`. -/
def package_uuid (p : Purl) : Uuid :=
  let result := newV5 NAMESPACE (utf8 p.ty)
  let result :=
    match p.nspace with
    | some ns => newV5 result (utf8 ns)
    | none => result
  newV5 result (utf8 p.name)

/-- Rust `Purl::then_version_uuid`: version bytes, or empty when absent. -/
def then_version_uuid (p : Purl) (package : Uuid) : Uuid :=
  newV5 package
    (match p.version with
     | some v => utf8 v
     | none => [])

/-- Rust `Purl::version_uuid`. -/
def version_uuid (p : Purl) : Uuid := p.then_version_uuid p.package_uuid

/-- Rust `Purl::then_qualifier_uuid`: fold over the (key-sorted) qualifiers,
hashing key then value at each step. -/
def then_qualifier_uuid (p : Purl) (version : Uuid) : Uuid :=
  p.qualifiers.foldl
    (fun result kv => newV5 (newV5 result (utf8 kv.1)) (utf8 kv.2)) version

/-- Rust `Purl::qualifier_uuid`. -/
def qualifier_uuid (p : Purl) : Uuid := p.then_qualifier_uuid p.version_uuid

/-- Rust `Purl::uuids`: the batched derivation reusing intermediate UUIDs. -/
def uuids (p : Purl) : Uuid × Uuid × Uuid :=
  let package := p.package_uuid
  let version := p.then_version_uuid package
  let qualified := p.then_qualifier_uuid version
  (package, version, qualified)

end Purl

/-! Chained derivation as the specification words it (spec §3, "Derived
identifiers"): `package_uuid = v5(NAMESPACE, type) →v5 namespace? →v5 name`,
`version_uuid = v5(package_uuid, version-bytes or empty)`, and
`qualified_uuid = fold over sorted qualifiers: v5(acc, key) then
v5(acc, value)`, starting from `version_uuid`. -/

/-- Spec-worded package identifier: `v5(NAMESPACE, type) →v5 namespace? →v5
name`. -/
def specPackageUuid (p : Purl) : Uuid :=
  let afterType := newV5 NAMESPACE (utf8 p.ty)
  let afterNs :=
    match p.nspace with
    | some ns => newV5 afterType (utf8 ns)
    | none => afterType
  newV5 afterNs (utf8 p.name)

/-- Spec-worded version identifier: `v5(package_uuid, version-bytes or
empty)`. -/
def specVersionUuid (p : Purl) : Uuid :=
  newV5 (specPackageUuid p)
    (match p.version with
     | some v => utf8 v
     | none => [])

/-- Spec-worded qualified identifier: fold over the sorted qualifiers,
`v5(acc, key)` then `v5(acc, value)`, starting from `version_uuid`. -/
def specQualifiedUuid (p : Purl) : Uuid :=
  p.qualifiers.foldl
    (fun acc kv => newV5 (newV5 acc (utf8 kv.1)) (utf8 kv.2))
    (specVersionUuid p)

/-- Lexicographic comparison of character lists by code point, the order
`BTreeMap<String, String>` keeps its keys in (UTF-8 byte order and code
point order agree). -/
def clLt : List Char → List Char → Bool
  | [], [] => false
  | [], _ :: _ => true
  | _ :: _, [] => false
  | c :: cs, d :: ds =>
    if c.toNat < d.toNat then true
    else if c = d then clLt cs ds
    else false

/-- The `BTreeMap` key order on strings. -/
def strLt (a b : String) : Bool := clLt a.data b.data

/-- Key ordering of the qualifier map entries. -/
abbrev qKeyLt (a b : String × String) : Prop := strLt a.1 b.1 = true

instance : IsAntisymm (String × String) qKeyLt where
  antisymm a b h h' := by
    exfalso
    have key : ∀ (x y : List Char),
        clLt x y = true → clLt y x = true → False := by
      intro x
      induction x with
      | nil =>
        intro y hx hy
        cases y with
        | nil => simp [clLt] at hx
        | cons c cs => simp [clLt] at hy
      | cons c cs ih =>
        intro y hx hy
        cases y with
        | nil => simp [clLt] at hx
        | cons d ds =>
          simp only [clLt] at hx hy
          by_cases h1 : c.toNat < d.toNat
          · have h2 : ¬ d.toNat < c.toNat := by omega
            have h3 : ¬ d = c := fun he => by simp [he] at h1
            simp [h2, h3] at hy
          · by_cases h2 : c = d
            · subst h2
              simp [h1] at hx hy
              exact ih ds hx hy
            · simp [h1, h2] at hx
    exact key a.1.data b.1.data h h'

/-- Insert one key/value pair into a key-sorted association list,
overwriting an existing binding of the same key. -/
def insertQ (k v : String) : List (String × String) → List (String × String)
  | [] => [(k, v)]
  | (k', v') :: t =>
    if strLt k k' then (k, v) :: (k', v') :: t
    else if k = k' then (k, v) :: t
    else (k', v') :: insertQ k v t

/-- Build the qualifier map by inserting pairs left to right. -/
def qualifiersOf (l : List (String × String)) : List (String × String) :=
  l.foldl (fun acc kv => insertQ kv.1 kv.2 acc) []

/-- Strip an expected leading character sequence. -/
def dropPre : List Char → List Char → Option (List Char)
  | [], l => some l
  | _ :: _, [] => none
  | p :: ps, c :: cs => if c = p then dropPre ps cs else none

/-- Split at the first occurrence of `c`: the part before it, and the part
after it when present. -/
def splitFirst (c : Char) : List Char → List Char × Option (List Char)
  | [] => ([], none)
  | x :: xs =>
    if x = c then ([], some xs)
    else
      let r := splitFirst c xs
      (x :: r.1, r.2)

/-- Split at every occurrence of `c`; the result is always nonempty. -/
def splitAll (c : Char) : List Char → List (List Char)
  | [] => [[]]
  | x :: xs =>
    if x = c then [] :: splitAll c xs
    else
      match splitAll c xs with
      | [] => [[x]]
      | y :: ys => (x :: y) :: ys

/-- Join character lists with a separating character. -/
def joinSep (c : Char) : List (List Char) → List Char
  | [] => []
  | [x] => x
  | x :: y :: t => x ++ c :: joinSep c (y :: t)

/-- Rust `Vec::join` on strings, as used by the `Display` impl. -/
def joinStr (sep : String) : List String → String
  | [] => ""
  | [x] => x
  | x :: y :: t => x ++ sep ++ joinStr sep (y :: t)

/-- One rendered qualifier: the key, an equals sign, the value. -/
def renderQual (kv : String × String) : String := kv.1 ++ "=" ++ kv.2

/-- The `impl Display for Purl`: render
`pkg://<type>[/<ns>]/<name>[@<version>][?k=v&...]`. -/
def Purl.render (p : Purl) : String :=
  let ns :=
    match p.nspace with
    | some n => "/" ++ n
    | none => ""
  let qualifiers :=
    if p.qualifiers.isEmpty then ""
    else "?" ++ joinStr "&" (p.qualifiers.map renderQual)
  let version :=
    match p.version with
    | some v => "@" ++ v
    | none => ""
  "pkg://" ++ p.ty ++ ns ++ "/" ++ p.name ++ version ++ qualifiers

/-- Parse one `k=v` qualifier chunk, splitting at the first `=`. -/
def parseQualPair (chunk : List Char) : String × String :=
  let r := splitFirst '=' chunk
  (String.mk r.1, String.mk (r.2.getD []))

/-- Modelled from the spec: parsing of the purl string form
`pkg://<type>[/<ns>]/<name>[@<version>][?k=v&...]` (spec §4.1). The
repository delegates parsing to the external `packageurl` crate, whose
source is not part of this repository; this definition follows the spec's
grammar: the qualifier part starts at the first `?`, the version at the
first `@` of the remainder, the path splits on `/` into type, optional
namespace, and name, and qualifiers are collected into the key-sorted
map. -/
def parsePurl (s : String) : Option Purl :=
  match dropPre "pkg://".data s.data with
  | none => none
  | some rest =>
    let m := splitFirst '?' rest
    let pv := splitFirst '@' m.1
    match splitAll '/' pv.1 with
    | t :: r :: rs =>
      match (r :: rs).reverse with
      | [] => none
      | nameSeg :: revNs =>
        let ns :=
          if revNs.isEmpty then none
          else some (String.mk (joinSep '/' revNs.reverse))
        let quals :=
          match m.2 with
          | none => []
          | some q => qualifiersOf ((splitAll '&' q).map parseQualPair)
        some ⟨String.mk t, ns, String.mk nameSeg, pv.2.map String.mk, quals⟩
    | _ => none

/-- Whether `s` contains none of the characters in `bad`. -/
def noChars (bad : List Char) (s : String) : Bool :=
  s.data.all (fun c => decide (c ∉ bad))

/-- The qualifier list is strictly sorted by key. -/
def sortedKeysB : List (String × String) → Bool
  | [] => true
  | [_] => true
  | a :: b :: t => strLt a.1 b.1 && sortedKeysB (b :: t)

/-- A purl whose components are free of the reserved delimiter characters
of the rendered form, with its qualifier map strictly key-sorted (as every
`BTreeMap` iteration is). -/
def Purl.wf (p : Purl) : Bool :=
  noChars ['/', '@', '?'] p.ty
  && (match p.nspace with
      | some n => noChars ['@', '?'] n
      | none => true)
  && noChars ['/', '@', '?'] p.name
  && (match p.version with
      | some v => noChars ['?'] v
      | none => true)
  && p.qualifiers.all (fun kv => noChars ['=', '&'] kv.1 && noChars ['&'] kv.2)
  && sortedKeysB p.qualifiers

/-- The namespace part of the rendered purl, as characters. -/
def nsSuf : Option String → List Char
  | some n => '/' :: n.data
  | none => []

/-- The version part of the rendered purl, as characters. -/
def verSuf : Option String → List Char
  | some v => '@' :: v.data
  | none => []

/-- The qualifier part of the rendered purl, as characters. -/
def qualSuf (quals : List (String × String)) : List Char :=
  if quals.isEmpty then []
  else '?' :: (joinStr "&" (quals.map renderQual)).data

/-! ## SPDX relationship translation
(`src/modules/ingestor/src/graph/sbom/spdx.rs`, lines 203-239)

`RelationshipType` is the `spdx_rs` relationship vocabulary (the variants
matched by the code plus representative unmapped ones covered by its `_`
arm); `Relationship` is the internal vocabulary of
`trustify_entity::relationship`. -/

inductive RelationshipType where
  | describes | describedBy | contains | containedBy
  | dependsOn | dependencyOf | devDependencyOf | optionalDependencyOf
  | providedDependencyOf | testDependencyOf | runtimeDependencyOf
  | exampleOf | generates | generatedFrom | ancestorOf | descendantOf
  | variantOf | buildToolOf | devToolOf
  | amends | buildDependencyOf | dataFileOf | patchFor | copyOf | other
deriving DecidableEq, Repr

inductive Relationship where
  | containedBy | dependencyOf | devDependencyOf | optionalDependencyOf
  | providedDependencyOf | testDependencyOf | runtimeDependencyOf
  | exampleOf | generatedFrom | ancestorOf | variantOf | buildToolOf
  | devToolOf | describedBy
deriving DecidableEq, Repr

/-- The impl `TryFrom<(&str, &RelationshipType, &str)> for SpdxRelationship`: rewrite
each SPDX edge so it points from dependent/child to parent; kinds already in
the internal vocabulary pass through; unmapped kinds are dropped (`Err`). -/
def spdxRelTryFrom (left : String) (rel : RelationshipType) (right : String) :
    Option (String × Relationship × String) :=
  match rel with
  | .contains => some (right, .containedBy, left)
  | .containedBy => some (left, .containedBy, right)
  | .describes => some (right, .describedBy, left)
  | .describedBy => some (left, .describedBy, right)
  | .dependsOn => some (right, .dependencyOf, left)
  | .dependencyOf => some (left, .dependencyOf, right)
  | .devDependencyOf => some (left, .devDependencyOf, right)
  | .optionalDependencyOf => some (left, .optionalDependencyOf, right)
  | .providedDependencyOf => some (left, .providedDependencyOf, right)
  | .testDependencyOf => some (left, .testDependencyOf, right)
  | .runtimeDependencyOf => some (left, .runtimeDependencyOf, right)
  | .exampleOf => some (left, .exampleOf, right)
  | .generates => some (right, .generatedFrom, left)
  | .generatedFrom => some (left, .generatedFrom, right)
  | .ancestorOf => some (left, .ancestorOf, right)
  | .descendantOf => some (right, .ancestorOf, left)
  | .variantOf => some (left, .variantOf, right)
  | .buildToolOf => some (left, .buildToolOf, right)
  | .devToolOf => some (left, .devToolOf, right)
  | _ => none

/-! ## SPDX ingest walk (`SbomContext::ingest_spdx`, spdx.rs lines 50-198)

The walk itself is translated from `spdx.rs`. The batch creators and
`RelationshipCreator::validate` live in `graph/sbom/mod.rs`, which is not
among the provided sources; they are modelled from the spec (§4.3): the
creators collect node-ids, and `validate(sources)` requires every
referenced node-id to appear in at least one source — the document root
id, the `PackageCreator`, or the `FileCreator` — failing with
`Error::InvalidReference` otherwise. `ingest_spdx` wraps that failure in
`Error::Generic` (spdx.rs line 187). -/

structure SpdxPackage where
  id : String
  name : String
  version : Option String
  supplier : Option String
deriving DecidableEq, Repr

structure SpdxFile where
  id : String
  name : String
deriving DecidableEq, Repr

structure SpdxRel where
  spdxElementId : String
  relationshipType : RelationshipType
  relatedSpdxElement : String
deriving DecidableEq, Repr

structure SpdxDoc where
  docId : String
  documentDescribes : List String
  relationships : List SpdxRel
  packages : List SpdxPackage
  files : List SpdxFile
deriving DecidableEq, Repr

/-- A product registered through the Graph Service: name, vendor (the
package supplier) and, when the package has a version, the product version
bound to the sbom id. -/
structure ProductEntry where
  name : String
  vendor : Option String
  versionBinding : Option (String × Nat)
deriving DecidableEq, Repr

inductive ValError where
  | invalidReference (node : String)
deriving DecidableEq, Repr

inductive IngestError where
  | generic (e : ValError)
deriving DecidableEq, Repr

structure IngestResult where
  relationships : List (String × Relationship × String)
  packages : List (String × String × Option String)
  files : List (String × String)
  products : List ProductEntry
deriving DecidableEq, Repr

/-- The relationships accumulated by the walk: one `DescribedBy` edge to
the document root per `document_describes` entry, then the translated
document relationships, unmapped kinds skipped. -/
def spdxRels (doc : SpdxDoc) : List (String × Relationship × String) :=
  doc.documentDescribes.map
    (fun described => (described, Relationship.describedBy, doc.docId))
  ++ doc.relationships.filterMap
    (fun rel => spdxRelTryFrom rel.spdxElementId rel.relationshipType
      rel.relatedSpdxElement)

/-- The `product_packages` accumulator of the walk. Note that the
`document_describes` loop pushes the document's own spdx identifier
(spdx.rs lines 83-88), while the relationship loop pushes the left
(described) node of each `DescribedBy` edge. -/
def productPackages (doc : SpdxDoc) : List String :=
  doc.documentDescribes.map (fun _ => doc.docId)
  ++ (doc.relationships.filterMap
    (fun rel => spdxRelTryFrom rel.spdxElementId rel.relationshipType
      rel.relatedSpdxElement)).filterMap
    (fun t => if t.2.1 = Relationship.describedBy then some t.1 else none)

/-- Modelled from the spec: the node-id sources for validation — the
document root id, the `PackageCreator`'s node-ids and the `FileCreator`'s
node-ids (spec §4.3; `References` is in `graph/sbom/mod.rs`, not among the
provided sources). -/
def references (doc : SpdxDoc) : List String :=
  doc.docId :: (doc.packages.map SpdxPackage.id ++ doc.files.map SpdxFile.id)

/-- Modelled from the spec: `RelationshipCreator::validate(sources)` —
every node-id referenced on either side of a relationship must appear in
the sources, otherwise `Error::InvalidReference` names an offending
node-id (spec §4.3, §7). -/
def validateRels (sources : List String)
    (rels : List (String × Relationship × String)) : Except ValError Unit :=
  match rels.find?
      (fun t => !(decide (t.1 ∈ sources) && decide (t.2.2 ∈ sources))) with
  | some t =>
    Except.error (ValError.invalidReference
      (if t.1 ∈ sources then t.2.2 else t.1))
  | none => Except.ok ()

/-- Rust `SbomContext::ingest_spdx`, as a pure function from the document to
the rows it inserts: collect relationships and product registrations,
collect packages and files, validate the relationships against the node
sources, and fail without inserting any relationship when validation
fails. -/
def ingestSpdx (sbomId : Nat) (doc : SpdxDoc) :
    Except IngestError IngestResult :=
  let rels := spdxRels doc
  let prodIds := productPackages doc
  let packages := doc.packages.map (fun p => (p.id, p.name, p.version))
  let products := doc.packages.filterMap (fun p =>
    if p.id ∈ prodIds then
      some ⟨p.name, p.supplier, p.version.map (fun v => (v, sbomId))⟩
    else none)
  let files := doc.files.map (fun f => (f.id, f.name))
  match validateRels (references doc) rels with
  | Except.error e => Except.error (IngestError.generic e)
  | Except.ok _ => Except.ok ⟨rels, packages, files, products⟩

instance {e a : Type} [DecidableEq e] [DecidableEq a] :
    DecidableEq (Except e a) := fun x y =>
  match x, y with
  | .error x1, .error y1 =>
    if h : x1 = y1 then isTrue (by rw [h])
    else isFalse (by intro hc; cases hc; exact h rfl)
  | .error _, .ok _ => isFalse (by intro hc; cases hc)
  | .ok _, .error _ => isFalse (by intro hc; cases hc)
  | .ok x1, .ok y1 =>
    if h : x1 = y1 then isTrue (by rw [h])
    else isFalse (by intro hc; cases hc; exact h rfl)

/-- The spec's two-package example: `DOCUMENT describes PKG-A` (via the
`document_describes` field) and `PKG-A contains PKG-B`. -/
def exDoc : SpdxDoc :=
  ⟨"SPDXRef-DOCUMENT", ["SPDXRef-PKG-A"],
   [⟨"SPDXRef-PKG-A", RelationshipType.contains, "SPDXRef-PKG-B"⟩],
   [⟨"SPDXRef-PKG-A", "package-a", some "1.0", some "Acme"⟩,
    ⟨"SPDXRef-PKG-B", "package-b", some "2.0", none⟩],
   []⟩

/-- The doc `exDoc` with a relationship to a node-id that exists nowhere. -/
def badDoc : SpdxDoc :=
  ⟨"SPDXRef-DOCUMENT", ["SPDXRef-PKG-A"],
   [⟨"SPDXRef-PKG-A", RelationshipType.contains, "SPDXRef-MISSING"⟩],
   [⟨"SPDXRef-PKG-A", "package-a", some "1.0", some "Acme"⟩,
    ⟨"SPDXRef-PKG-B", "package-b", some "2.0", none⟩],
   []⟩

/-- The doc `exDoc` with the describes edge expressed as an explicit `Describes`
relationship instead of the `document_describes` field. -/
def relDoc : SpdxDoc :=
  ⟨"SPDXRef-DOCUMENT", [],
   [⟨"SPDXRef-DOCUMENT", RelationshipType.describes, "SPDXRef-PKG-A"⟩,
    ⟨"SPDXRef-PKG-A", RelationshipType.contains, "SPDXRef-PKG-B"⟩],
   [⟨"SPDXRef-PKG-A", "package-a", some "1.0", some "Acme"⟩,
    ⟨"SPDXRef-PKG-B", "package-b", some "2.0", none⟩],
   []⟩

/-! ## SPDX license repair (`fix_license` / `parse_spdx`, spdx.rs 254-287)

`serde_json::Value` is modelled by `Json`. The external
`spdx_expression::SpdxExpression::parse` is abstracted as a function
`P : String → Option String` returning `some err` exactly when parsing the
expression fails with error text `err`. -/

inductive Json where
  | null
  | bool (b : Bool)
  | num (n : Int)
  | str (s : String)
  | arr (items : List Json)
  | obj (fields : List (String × Json))

/-- First binding of a key in an object's fields, `Value::Null` if absent
(`serde_json` indexing). -/
def getField (k : String) : List (String × Json) → Json
  | [] => Json.null
  | (k', v) :: t => if k' = k then v else getField k t

/-- Indexing `json[k]`: `Null` for a missing key or a non-object. -/
def Json.getKey (j : Json) (k : String) : Json :=
  match j with
  | .obj fs => getField k fs
  | _ => .null

def setField (k : String) (v : Json) : List (String × Json) → List (String × Json)
  | [] => [(k, v)]
  | (k', v') :: t => if k' = k then (k, v) :: t else (k', v') :: setField k v t

/-- Assignment `json[k] = v`. In `fix_license` the assignment only ever targets an
object that was just read as one, so the non-object case (a `serde_json`
panic) is modelled as the identity. -/
def Json.setKey (j : Json) (k : String) (v : Json) : Json :=
  match j with
  | .obj fs => .obj (setField k v fs)
  | j => j

/-- The repair of one package: if `licenseDeclared` is a string that fails
SPDX-expression parsing, replace it with `NOASSERTION`, flag the change,
and emit the warning message of spdx.rs line 264-265. -/
def fixPackage (P : String → Option String) (pkg : Json) :
    Json × Bool × Option String :=
  match pkg.getKey "licenseDeclared" with
  | .str s =>
    match P s with
    | some err =>
      (pkg.setKey "licenseDeclared" (Json.str "NOASSERTION"), true,
       some ("Replacing faulty SPDX license expression with NOASSERTION: "
         ++ err))
    | none => (pkg, false, none)
  | _ => (pkg, false, none)

/-- Rust `fix_license`: walk `json["packages"]` repairing each package; return
the (possibly updated) document, the changed flag, and the messages sent
to the report sink, in order. A document without a packages array is
returned unchanged. -/
def fixLicense (P : String → Option String) (j : Json) :
    Json × Bool × List String :=
  match j.getKey "packages" with
  | .arr pkgs =>
    let results := pkgs.map (fixPackage P)
    (j.setKey "packages" (Json.arr (results.map (fun r => r.1))),
     results.any (fun r => r.2.1),
     results.filterMap (fun r => r.2.2))
  | _ => (j, false, [])

/-- A concrete stand-in for `SpdxExpression::parse`: the broken expression
of the spec's scenario fails with an error text naming it, everything else
parses. -/
def exLicenseParse : String → Option String := fun s =>
  if s = "GPL-2.0+ WITH broken"
  then some "invalid SPDX expression: GPL-2.0+ WITH broken"
  else none

/-- The spec's scenario document: one package with the faulty declared
license, one with a fine one. -/
def exSpdxJson : Json :=
  Json.obj [("spdxVersion", Json.str "SPDX-2.3"),
    ("packages", Json.arr
      [Json.obj [("name", Json.str "pkg-a"),
        ("licenseDeclared", Json.str "GPL-2.0+ WITH broken")],
       Json.obj [("name", Json.str "pkg-b"),
        ("licenseDeclared", Json.str "MIT")]])]

/-! ## Importer service (`src/modules/importer/src/service.rs`)

The database is a list of importer rows plus a list of report rows;
`update_many ... WHERE name = ? AND (revision = expected OR expected IS
NULL)` becomes a map over the rows guarded by `rowMatches`. Uuid::new_v4
values are passed in as `fresh`/`id` parameters; `OffsetDateTime::now_utc()`
becomes a `now : Nat` parameter, all calls within one operation sharing
the instant. -/

inductive ImpState where
  | waiting
  | running
deriving DecidableEq, Repr

structure ImporterRow where
  name : String
  revision : String
  state : ImpState
  lastChange : Nat
  lastSuccess : Option Nat
  lastRun : Option Nat
  lastError : Option String
  configuration : String
deriving DecidableEq, Repr

structure ImporterReportRow where
  id : String
  importer : String
  creation : Nat
  error : Option String
  report : String
deriving DecidableEq, Repr

structure ImporterDb where
  importers : List ImporterRow
  reports : List ImporterReportRow
deriving DecidableEq, Repr

inductive ImporterError where
  | alreadyExists (name : String)
  | notFound (name : String)
  | midAirCollision
deriving DecidableEq, Repr

/-- The row filter of `ImporterService::update`:
`name = ? AND (revision = expected OR expected IS NULL)`. -/
def rowMatches (name : String) (expected : Option String)
    (r : ImporterRow) : Bool :=
  decide (r.name = name) &&
    (match expected with
     | none => true
     | some e => decide (r.revision = e))

/-- Rust `ImporterService::update` (service.rs 203-242): apply the column
updates `f` and rotate `revision` to `fresh` on every matching row; when
zero rows were affected, return `NotFound` if no importer of that name
exists and `MidAirCollision` otherwise. -/
def updateImporter (db : ImporterDb) (name : String)
    (expected : Option String) (fresh : String)
    (f : ImporterRow → ImporterRow) : Except ImporterError ImporterDb :=
  let affected := db.importers.countP (rowMatches name expected)
  if affected = 0 then
    if db.importers.countP (fun r => decide (r.name = name)) = 0 then
      Except.error (ImporterError.notFound name)
    else Except.error ImporterError.midAirCollision
  else
    Except.ok { db with importers := db.importers.map (fun r =>
      if rowMatches name expected r then f { r with revision := fresh }
      else r) }

/-- Rust `ImporterService::update_configuration`. -/
def update_configuration (db : ImporterDb) (name : String)
    (expected : Option String) (fresh cfg : String) :
    Except ImporterError ImporterDb :=
  updateImporter db name expected fresh
    (fun r => { r with configuration := cfg })

/-- Rust `ImporterService::update_start`: `last_change = now`,
`state = Running`. -/
def update_start (db : ImporterDb) (name : String)
    (expected : Option String) (fresh : String) (now : Nat) :
    Except ImporterError ImporterDb :=
  updateImporter db name expected fresh
    (fun r => { r with lastChange := now, state := ImpState.running })

/-- Rust `ImporterService::update_finish` (service.rs 156-201): transactionally
set `last_error`, `last_run`, `state = Waiting`, `last_change = now`, on
success (`last_error` absent) also `last_success = now`; then insert an
`ImporterReport` row when a report is provided. -/
def update_finish (db : ImporterDb) (name : String)
    (expected : Option String) (fresh id : String) (lastRun : Nat)
    (lastError : Option String) (report : Option String) (now : Nat) :
    Except ImporterError ImporterDb :=
  (updateImporter db name expected fresh (fun r =>
    let r2 := { r with
      lastError := lastError
      lastRun := some lastRun
      state := ImpState.waiting
      lastChange := now }
    if lastError.isNone then { r2 with lastSuccess := some now }
    else r2)).map
  (fun db2 =>
    match report with
    | some rep =>
      { db2 with reports := db2.reports ++ [⟨id, name, now, lastError, rep⟩] }
    | none => db2)

/-- A one-importer database for the lifecycle scenarios. -/
def exRow : ImporterRow :=
  ⟨"osv", "rev-0", ImpState.waiting, 0, none, none, none, "cfg-0"⟩

def exImporterDb : ImporterDb := ⟨[exRow], []⟩

/-! ## Theorems -/

/-- C1: the derived identifiers follow the chained UUIDv5 scheme of the
spec, and `uuids` is a deterministic function of exactly
`(type, namespace, name, version, sorted qualifiers)`. -/
theorem purl_uuids_chained_scheme :
    (∀ p : Purl,
      p.uuids = (specPackageUuid p, specVersionUuid p, specQualifiedUuid p))
    ∧ (∀ p q : Purl, p.ty = q.ty → p.nspace = q.nspace → p.name = q.name →
        p.version = q.version → p.qualifiers = q.qualifiers →
        p.uuids = q.uuids) := by
  constructor
  · intro p
    rfl
  · intro p q hty hns hname hver hq
    cases p
    cases q
    simp only at hty hns hname hver hq
    subst hty hns hname hver hq
    rfl

/-- Witness for C1 at concrete purls. -/
theorem purl_uuids_chained_scheme_witness :
    let p : Purl := ⟨"maven", some "io.quarkus", "quarkus-core",
      some "1.2.3", [("foo", "bar")]⟩
    let q : Purl := ⟨"maven", some "io.quarkus", "quarkus-core",
      some "1.2.3", [("foo", "bar")]⟩
    p.uuids = (specPackageUuid p, specVersionUuid p, specQualifiedUuid p)
      ∧ p.uuids = q.uuids := by
  exact ⟨purl_uuids_chained_scheme.1 _,
    purl_uuids_chained_scheme.2 _ _ rfl rfl rfl rfl rfl⟩

/-- C10: the batched derivation `uuids` agrees componentwise with the three
independent public accessors. -/
theorem purl_uuids_eq_accessors (p : Purl) :
    p.uuids = (p.package_uuid, p.version_uuid, p.qualifier_uuid) := rfl

/-! ## The qualifier map

`Purl.qualifiers` is a Rust `BTreeMap<String, String>`: inserting the
qualifiers in any order produces the same key-sorted map, later inserts of
an existing key overwriting the earlier value. `insertQ` is one map insert,
`qualifiersOf` builds the map from an iteration order (`collect()`). -/

theorem char_toNat_inj {c d : Char} (h : c.toNat = d.toNat) : c = d := by
  apply Char.ext
  exact UInt32.toNat.inj h

theorem clLt_irrefl (a : List Char) : clLt a a = false := by
  induction a with
  | nil => rfl
  | cons x xs ih => simp [clLt, ih]

theorem clLt_asymm {a b : List Char} (h : clLt a b = true) :
    clLt b a = false := by
  induction a generalizing b with
  | nil =>
    cases b with
    | nil => simp [clLt] at h
    | cons y ys => rfl
  | cons x xs ih =>
    cases b with
    | nil => simp [clLt] at h
    | cons y ys =>
      simp only [clLt] at h ⊢
      by_cases hxy : x.toNat < y.toNat
      · have h1 : ¬ y.toNat < x.toNat := by omega
        have h2 : y ≠ x := fun he => by simp [he] at hxy
        simp [h1, h2]
      · by_cases hE : x = y
        · subst hE
          simp [hxy] at h
          simp [hxy, ih h]
        · simp [hxy, hE] at h

theorem clLt_trans {a b c : List Char} (h1 : clLt a b = true)
    (h2 : clLt b c = true) : clLt a c = true := by
  induction a generalizing b c with
  | nil =>
    cases b with
    | nil => simp [clLt] at h1
    | cons y ys =>
      cases c with
      | nil => simp [clLt] at h2
      | cons z zs => rfl
  | cons x xs ih =>
    cases b with
    | nil => simp [clLt] at h1
    | cons y ys =>
      cases c with
      | nil => simp [clLt] at h2
      | cons z zs =>
        simp only [clLt] at h1 h2 ⊢
        by_cases hxy : x.toNat < y.toNat
        · by_cases hyz : y.toNat < z.toNat
          · simp [show x.toNat < z.toNat from by omega]
          · by_cases hyzE : y = z
            · subst hyzE
              simp [hxy]
            · simp [hyz, hyzE] at h2
        · by_cases hxyE : x = y
          · subst hxyE
            simp only [hxy, if_false, if_pos rfl] at h1
            by_cases hyz : x.toNat < z.toNat
            · simp [hyz]
            · by_cases hyzE : x = z
              · subst hyzE
                simp only [hyz, if_false, if_pos rfl] at h2
                simp [hyz, ih h1 h2]
              · simp [hyz, hyzE] at h2
          · simp [hxy, hxyE] at h1

theorem clLt_total_of_ne {a b : List Char} (h : a ≠ b) :
    clLt a b = true ∨ clLt b a = true := by
  induction a generalizing b with
  | nil =>
    cases b with
    | nil => exact absurd rfl h
    | cons y ys => exact Or.inl rfl
  | cons x xs ih =>
    cases b with
    | nil => exact Or.inr rfl
    | cons y ys =>
      by_cases hxy : x.toNat < y.toNat
      · exact Or.inl (by simp [clLt, hxy])
      · by_cases hE : x = y
        · subst hE
          have hne : xs ≠ ys := fun he => h (by rw [he])
          rcases ih hne with h' | h'
          · exact Or.inl (by simp [clLt, hxy, h'])
          · exact Or.inr (by simp [clLt, hxy, h'])
        · have hyx : y.toNat < x.toNat := by
            rcases Nat.lt_trichotomy x.toNat y.toNat with h' | h' | h'
            · exact absurd h' hxy
            · exact absurd (char_toNat_inj h') hE
            · exact h'
          have hyxE : y ≠ x := fun he => hE he.symm
          exact Or.inr (by simp [clLt, hyx])

theorem strEq_of_data {a b : String} (h : a.data = b.data) : a = b := by
  cases a
  cases b
  simp only at h
  rw [h]

theorem strLt_total_of_ne {a b : String} (h : a ≠ b) :
    strLt a b = true ∨ strLt b a = true :=
  clLt_total_of_ne (fun he => h (strEq_of_data he))

theorem strLt_trans {a b c : String} (h1 : strLt a b = true)
    (h2 : strLt b c = true) : strLt a c = true :=
  clLt_trans h1 h2

theorem keys_insertQ {a : String} {k v : String}
    {l : List (String × String)}
    (h : a ∈ (insertQ k v l).map Prod.fst) :
    a = k ∨ a ∈ l.map Prod.fst := by
  induction l with
  | nil =>
    simp [insertQ] at h
    exact Or.inl h
  | cons hd t ih =>
    obtain ⟨k', v'⟩ := hd
    by_cases h1 : strLt k k' = true
    · simp only [insertQ, if_pos h1] at h
      simpa using h
    · by_cases h2 : k = k'
      · simp only [insertQ, if_neg h1, if_pos h2] at h
        rcases (by simpa using h : a = k ∨ a ∈ t.map Prod.fst) with h | h
        · exact Or.inl h
        · exact Or.inr (by simp [h])
      · simp only [insertQ, if_neg h1, if_neg h2] at h
        rcases (by simpa using h :
            a = k' ∨ a ∈ (insertQ k v t).map Prod.fst) with h | h
        · exact Or.inr (by simp [h])
        · rcases ih h with h | h
          · exact Or.inl h
          · exact Or.inr (by simp [h])

theorem insertQ_sorted {k v : String} {l : List (String × String)}
    (h : l.Pairwise qKeyLt) : (insertQ k v l).Pairwise qKeyLt := by
  induction l with
  | nil => simp [insertQ]
  | cons hd t ih =>
    obtain ⟨k', v'⟩ := hd
    rcases List.pairwise_cons.mp h with ⟨hhd, ht⟩
    by_cases h1 : strLt k k' = true
    · simp only [insertQ, if_pos h1]
      refine List.pairwise_cons.mpr ⟨?_, h⟩
      intro b hb
      rcases List.mem_cons.mp hb with rfl | hb
      · exact h1
      · exact strLt_trans h1 (hhd b hb)
    · by_cases h2 : k = k'
      · simp only [insertQ, if_neg h1, if_pos h2]
        refine List.pairwise_cons.mpr ⟨?_, ht⟩
        intro b hb
        exact h2 ▸ hhd b hb
      · simp only [insertQ, if_neg h1, if_neg h2]
        refine List.pairwise_cons.mpr ⟨?_, ih ht⟩
        intro b hb
        have hk'k : strLt k' k = true := by
          rcases strLt_total_of_ne h2 with h' | h'
          · exact absurd h' h1
          · exact h'
        rcases keys_insertQ (List.mem_map_of_mem Prod.fst hb) with hb' | hb'
        · show strLt k' b.1 = true
          rw [hb']
          exact hk'k
        · rcases List.mem_map.mp hb' with ⟨c, hc, hc'⟩
          show strLt k' b.1 = true
          rw [← hc']
          exact hhd c hc

theorem insertQ_perm {k v : String} {l : List (String × String)}
    (h : k ∉ l.map Prod.fst) :
    List.Perm (insertQ k v l) ((k, v) :: l) := by
  induction l with
  | nil => simp [insertQ]
  | cons hd t ih =>
    obtain ⟨k', v'⟩ := hd
    simp only [List.map_cons, List.mem_cons] at h
    push_neg at h
    by_cases h1 : strLt k k' = true
    · simp only [insertQ, if_pos h1]
      exact List.Perm.refl _
    · simp only [insertQ, if_neg h1, if_neg h.1]
      exact (List.Perm.cons _ (ih h.2)).trans (List.Perm.swap (k, v) (k', v') t)

theorem qualifiersOf_perm {l : List (String × String)}
    (h : (l.map Prod.fst).Nodup) : List.Perm (qualifiersOf l) l := by
  suffices H : ∀ (l acc : List (String × String)),
      (l.map Prod.fst).Nodup →
      (∀ a ∈ l.map Prod.fst, a ∉ acc.map Prod.fst) →
      List.Perm (l.foldl (fun acc kv => insertQ kv.1 kv.2 acc) acc)
        (l ++ acc) by
    simpa using H l [] h (by simp)
  intro l
  induction l with
  | nil => intro acc _ _; simp
  | cons hd t ih =>
    intro acc hnd hdisj
    simp only [List.map_cons, List.nodup_cons] at hnd
    have hhd : hd.1 ∉ acc.map Prod.fst := hdisj hd.1 (by simp)
    have hstep : ∀ a ∈ t.map Prod.fst,
        a ∉ (insertQ hd.1 hd.2 acc).map Prod.fst := by
      intro a ha hmem
      rcases keys_insertQ hmem with h' | h'
      · exact hnd.1 (h' ▸ ha)
      · exact hdisj a (by simp [ha]) h'
    have s1 : List.Perm
        (t.foldl (fun acc kv => insertQ kv.1 kv.2 acc)
          (insertQ hd.1 hd.2 acc))
        (t ++ insertQ hd.1 hd.2 acc) := ih _ hnd.2 hstep
    have s2 : List.Perm (t ++ insertQ hd.1 hd.2 acc) (t ++ (hd :: acc)) :=
      List.Perm.append_left t (by simpa using insertQ_perm hhd)
    have s3 : List.Perm (t ++ (hd :: acc)) (hd :: (t ++ acc)) :=
      List.perm_middle
    simpa using (s1.trans (s2.trans s3))

theorem qualifiersOf_sorted (l : List (String × String)) :
    (qualifiersOf l).Pairwise qKeyLt := by
  suffices H : ∀ (l acc : List (String × String)), acc.Pairwise qKeyLt →
      (l.foldl (fun acc kv => insertQ kv.1 kv.2 acc) acc).Pairwise qKeyLt by
    exact H l [] (by simp)
  intro l
  induction l with
  | nil => intro acc h; simpa using h
  | cons hd t ih => intro acc h; exact ih _ (insertQ_sorted h)

/-- Building the qualifier map from two iteration orders of the same
qualifier set yields the same map. -/
theorem qualifiersOf_eq_of_perm {l1 l2 : List (String × String)}
    (hp : List.Perm l1 l2) (hnd : (l1.map Prod.fst).Nodup) :
    qualifiersOf l1 = qualifiersOf l2 := by
  have hnd2 : (l2.map Prod.fst).Nodup := (hp.map Prod.fst).nodup_iff.mp hnd
  refine List.eq_of_perm_of_sorted ?_ (qualifiersOf_sorted l1)
    (qualifiersOf_sorted l2)
  exact (qualifiersOf_perm hnd).trans
    (hp.trans (qualifiersOf_perm hnd2).symm)

/-- C3: the qualified identifier is invariant under the order in which the
qualifiers are supplied to the map. -/
theorem qualifier_uuid_order_irrelevant
    (ty : String) (ns : Option String) (name : String)
    (version : Option String) (l1 l2 : List (String × String))
    (hp : List.Perm l1 l2) (hnd : (l1.map Prod.fst).Nodup) :
    Purl.qualifier_uuid ⟨ty, ns, name, version, qualifiersOf l1⟩ =
      Purl.qualifier_uuid ⟨ty, ns, name, version, qualifiersOf l2⟩ := by
  rw [qualifiersOf_eq_of_perm hp hnd]

/-! ## Rendering and parsing of purls

`impl Display for Purl` (purl.rs lines 135-168) renders
`pkg://<type>[/<ns>]/<name>[@<version>][?k=v&...]`, qualifiers iterated in
key order. Parsing (`FromStr`) delegates to the external `packageurl`
crate, which is not part of this repository; `parse` below is modelled
from the spec's grammar for the rendered form. -/

/-- Witness for C3 at a concrete pair of permuted qualifier lists. -/
theorem qualifier_uuid_order_irrelevant_witness :
    List.Perm [("arch", "amd64"), ("repository_url", "r")]
        [("repository_url", "r"), ("arch", "amd64")]
      ∧ Purl.qualifier_uuid ⟨"rpm", some "redhat", "curl", some "7.61",
          qualifiersOf [("arch", "amd64"), ("repository_url", "r")]⟩ =
        Purl.qualifier_uuid ⟨"rpm", some "redhat", "curl", some "7.61",
          qualifiersOf [("repository_url", "r"), ("arch", "amd64")]⟩ := by
  refine ⟨by decide, qualifier_uuid_order_irrelevant _ _ _ _ _ _ (by decide)
    (by decide)⟩

/-! ### Split/join toolkit for the purl grammar -/

theorem nm_append {α} {a : α} {l1 l2 : List α} (h1 : a ∉ l1) (h2 : a ∉ l2) :
    a ∉ l1 ++ l2 :=
  fun hm => (List.mem_append.mp hm).elim h1 h2

theorem nm_cons {α} {a b : α} {l : List α} (hne : a ≠ b) (h : a ∉ l) :
    a ∉ b :: l :=
  fun hm => (List.mem_cons.mp hm).elim hne h

theorem dropPre_append (p r : List Char) : dropPre p (p ++ r) = some r := by
  induction p with
  | nil => rfl
  | cons x xs ih => simp [dropPre, ih]

theorem splitFirst_not_mem {c : Char} {l : List Char} (h : c ∉ l) :
    splitFirst c l = (l, none) := by
  induction l with
  | nil => rfl
  | cons x xs ih =>
    simp only [List.mem_cons] at h
    push_neg at h
    have hxc : ¬(x = c) := fun he => h.1 he.symm
    simp [splitFirst, hxc, ih h.2]

theorem splitFirst_append {c : Char} {a : List Char} (b : List Char)
    (h : c ∉ a) : splitFirst c (a ++ c :: b) = (a, some b) := by
  induction a with
  | nil => simp [splitFirst]
  | cons x xs ih =>
    simp only [List.mem_cons] at h
    push_neg at h
    have hxc : ¬(x = c) := fun he => h.1 he.symm
    simp [splitFirst, hxc, ih h.2]

theorem splitAll_ne_nil (c : Char) (l : List Char) : splitAll c l ≠ [] := by
  cases l with
  | nil => simp [splitAll]
  | cons x xs =>
    by_cases hx : x = c
    · simp [splitAll, hx]
    · simp only [splitAll, if_neg hx]
      rcases hE : splitAll c xs with _ | ⟨y, ys⟩ <;> simp [hE]

theorem splitAll_not_mem {c : Char} {l : List Char} (h : c ∉ l) :
    splitAll c l = [l] := by
  induction l with
  | nil => rfl
  | cons x xs ih =>
    simp only [List.mem_cons] at h
    push_neg at h
    have hxc : ¬(x = c) := fun he => h.1 he.symm
    simp [splitAll, hxc, ih h.2]

theorem splitAll_append (c : Char) (a b : List Char) :
    splitAll c (a ++ c :: b) = splitAll c a ++ splitAll c b := by
  induction a with
  | nil => simp [splitAll]
  | cons x xs ih =>
    by_cases hx : x = c
    · simp [splitAll, hx, ih]
    · rcases hE : splitAll c xs with _ | ⟨y, ys⟩
      · exact absurd hE (splitAll_ne_nil c xs)
      · simp [splitAll, hx, ih, hE]

theorem joinSep_splitAll (c : Char) (l : List Char) :
    joinSep c (splitAll c l) = l := by
  induction l with
  | nil => rfl
  | cons x xs ih =>
    by_cases hx : x = c
    · subst hx
      simp only [splitAll, if_pos rfl]
      rcases hE : splitAll x xs with _ | ⟨y, ys⟩
      · exact absurd hE (splitAll_ne_nil x xs)
      · rw [hE] at ih
        simp [joinSep, ih]
    · simp only [splitAll, if_neg hx]
      rcases hE : splitAll c xs with _ | ⟨y, ys⟩
      · exact absurd hE (splitAll_ne_nil c xs)
      · rw [hE] at ih
        cases ys with
        | nil =>
          simp only [joinSep] at ih ⊢
          rw [ih]
        | cons z zs =>
          simp only [joinSep] at ih ⊢
          rw [List.cons_append, ih]

theorem splitAll_joinSep {c : Char} {ls : List (List Char)} (hne : ls ≠ [])
    (h : ∀ x ∈ ls, c ∉ x) : splitAll c (joinSep c ls) = ls := by
  induction ls with
  | nil => exact absurd rfl hne
  | cons x t ih =>
    cases t with
    | nil => simp [joinSep, splitAll_not_mem (h x (by simp))]
    | cons y ys =>
      have hx : c ∉ x := h x (by simp)
      have hrest : ∀ z ∈ y :: ys, c ∉ z := fun z hz => h z (by simp [hz])
      simp only [joinSep]
      rw [splitAll_append, splitAll_not_mem hx,
        ih (List.cons_ne_nil y ys) hrest]
      simp

theorem not_mem_of_mem_splitAll {c : Char} {l seg : List Char}
    (h : seg ∈ splitAll c l) : c ∉ seg := by
  induction l generalizing seg with
  | nil =>
    simp [splitAll] at h
    simp [h]
  | cons x xs ih =>
    by_cases hx : x = c
    · simp only [splitAll, if_pos hx, List.mem_cons] at h
      rcases h with rfl | h
      · simp
      · exact ih h
    · simp only [splitAll, if_neg hx] at h
      rcases hE : splitAll c xs with _ | ⟨y, ys⟩
      · exact absurd hE (splitAll_ne_nil c xs)
      · rw [hE] at h
        rcases List.mem_cons.mp h with rfl | h
        · have hy : c ∉ y := ih (by rw [hE]; simp)
          exact nm_cons (fun he => hx he.symm) hy
        · exact ih (by rw [hE]; simp [h])

theorem mem_of_mem_splitAll {c : Char} {l seg : List Char}
    (hseg : seg ∈ splitAll c l) {ch : Char} (hch : ch ∈ seg) : ch ∈ l := by
  induction l generalizing seg with
  | nil =>
    simp [splitAll] at hseg
    subst hseg
    simp at hch
  | cons x xs ih =>
    by_cases hx : x = c
    · simp only [splitAll, if_pos hx, List.mem_cons] at hseg
      rcases hseg with rfl | hseg
      · simp at hch
      · exact List.mem_cons_of_mem x (ih hseg hch)
    · simp only [splitAll, if_neg hx] at hseg
      rcases hE : splitAll c xs with _ | ⟨y, ys⟩
      · exact absurd hE (splitAll_ne_nil c xs)
      · rw [hE] at hseg
        rcases List.mem_cons.mp hseg with rfl | hseg
        · rcases List.mem_cons.mp hch with rfl | hch
          · simp
          · exact List.mem_cons_of_mem x (ih (by rw [hE]; simp) hch)
        · exact List.mem_cons_of_mem x (ih (by rw [hE]; simp [hseg]) hch)

theorem splitFirst_spec (c : Char) (l : List Char) :
    c ∉ (splitFirst c l).1 ∧ (∀ ch ∈ (splitFirst c l).1, ch ∈ l) ∧
    (∀ b, (splitFirst c l).2 = some b → ∀ ch ∈ b, ch ∈ l) := by
  induction l with
  | nil => exact ⟨by simp [splitFirst], by simp [splitFirst],
      by simp [splitFirst]⟩
  | cons x xs ih =>
    by_cases hx : x = c
    · subst hx
      refine ⟨by simp [splitFirst], by simp [splitFirst], ?_⟩
      intro b hb ch hch
      simp only [splitFirst, if_pos rfl] at hb
      cases hb
      exact List.mem_cons_of_mem x hch
    · refine ⟨?_, ?_, ?_⟩
      · simp only [splitFirst, if_neg hx]
        exact nm_cons (fun he => hx he.symm) ih.1
      · intro ch hch
        simp only [splitFirst, if_neg hx] at hch
        rcases List.mem_cons.mp hch with rfl | hch
        · simp
        · exact List.mem_cons_of_mem x (ih.2.1 ch hch)
      · intro b hb ch hch
        simp only [splitFirst, if_neg hx] at hb
        exact List.mem_cons_of_mem x (ih.2.2 b hb ch hch)

theorem joinSep_chars {c : Char} {ls : List (List Char)} {ch : Char}
    (h : ch ∈ joinSep c ls) : ch = c ∨ ∃ x ∈ ls, ch ∈ x := by
  induction ls with
  | nil => simp [joinSep] at h
  | cons x t ih =>
    cases t with
    | nil =>
      exact Or.inr ⟨x, by simp, by simpa [joinSep] using h⟩
    | cons y ys =>
      simp only [joinSep, List.mem_append, List.mem_cons] at h
      rcases h with h | h | h
      · exact Or.inr ⟨x, by simp, h⟩
      · exact Or.inl h
      · rcases ih h with h | ⟨z, hz, hch⟩
        · exact Or.inl h
        · exact Or.inr ⟨z, by simp [List.mem_cons.mp hz], hch⟩

theorem mem_insertQ_sub {x : String × String} {k v : String}
    {l : List (String × String)} (h : x ∈ insertQ k v l) :
    x = (k, v) ∨ x ∈ l := by
  induction l with
  | nil => simpa [insertQ] using h
  | cons hd t ih =>
    obtain ⟨k', v'⟩ := hd
    by_cases h1 : strLt k k' = true
    · simp only [insertQ, if_pos h1, List.mem_cons] at h
      rcases h with h | h | h
      · exact Or.inl h
      · exact Or.inr (by simp [h])
      · exact Or.inr (by simp [h])
    · by_cases h2 : k = k'
      · simp only [insertQ, if_neg h1, if_pos h2, List.mem_cons] at h
        rcases h with h | h
        · exact Or.inl h
        · exact Or.inr (by simp [h])
      · simp only [insertQ, if_neg h1, if_neg h2, List.mem_cons] at h
        rcases h with h | h
        · exact Or.inr (by simp [h])
        · rcases ih h with h | h
          · exact Or.inl h
          · exact Or.inr (by simp [h])

theorem mem_qualifiersOf_sub {x : String × String}
    {l : List (String × String)} (h : x ∈ qualifiersOf l) : x ∈ l := by
  suffices H : ∀ (l acc : List (String × String)),
      x ∈ l.foldl (fun acc kv => insertQ kv.1 kv.2 acc) acc →
      x ∈ acc ∨ x ∈ l by
    rcases H l [] h with h' | h'
    · simp at h'
    · exact h'
  intro l
  induction l with
  | nil => intro acc h'; exact Or.inl h'
  | cons hd t ih =>
    intro acc h'
    rcases ih _ h' with h'' | h''
    · rcases mem_insertQ_sub h'' with h3 | h3
      · exact Or.inr (by simp [h3])
      · exact Or.inl h3
    · exact Or.inr (by simp [h''])

theorem strLt_irrefl (a : String) : strLt a a = false := clLt_irrefl a.data

theorem sortedKeysB_of_pairwise {l : List (String × String)}
    (h : l.Pairwise qKeyLt) : sortedKeysB l = true := by
  induction l with
  | nil => rfl
  | cons a t ih =>
    cases t with
    | nil => rfl
    | cons b t2 =>
      rcases List.pairwise_cons.mp h with ⟨ha, ht⟩
      simp [sortedKeysB, ha b (by simp), ih ht]

theorem pairwise_of_sortedKeysB {l : List (String × String)}
    (h : sortedKeysB l = true) : l.Pairwise qKeyLt := by
  induction l with
  | nil => simp
  | cons a t ih =>
    cases t with
    | nil => simp
    | cons b t2 =>
      simp only [sortedKeysB, Bool.and_eq_true] at h
      have hp := ih h.2
      refine List.pairwise_cons.mpr ⟨?_, hp⟩
      intro z hz
      rcases List.mem_cons.mp hz with rfl | hz
      · exact h.1
      · exact strLt_trans h.1 ((List.pairwise_cons.mp hp).1 z hz)

theorem qualifiersOf_sorted_id {l : List (String × String)}
    (h : sortedKeysB l = true) : qualifiersOf l = l := by
  have hp := pairwise_of_sortedKeysB h
  have hnd : (l.map Prod.fst).Nodup := by
    refine List.Pairwise.map Prod.fst ?_ hp
    intro a b hab he
    have hab2 : strLt a.1 b.1 = true := hab
    rw [he, strLt_irrefl] at hab2
    exact Bool.false_ne_true hab2
  exact List.eq_of_perm_of_sorted (qualifiersOf_perm hnd)
    (qualifiersOf_sorted l) hp

theorem strMk_data (s : String) : String.mk s.data = s := by
  cases s
  rfl

theorem noChars_not_mem {bad : List Char} {s : String}
    (h : noChars bad s = true) {c : Char} (hc : c ∈ bad) : c ∉ s.data := by
  intro hmem
  simp only [noChars, List.all_eq_true] at h
  exact of_decide_eq_true (h c hmem) hc

theorem isEmpty_append_single {α} (l : List α) (a : α) :
    (l ++ [a]).isEmpty = false := by
  cases l <;> rfl

theorem joinStr_amp_data (ss : List String) :
    (joinStr "&" ss).data = joinSep '&' (ss.map String.data) := by
  induction ss with
  | nil => rfl
  | cons x t ih =>
    cases t with
    | nil => rfl
    | cons y ys =>
      show (x ++ "&" ++ joinStr "&" (y :: ys)).data = _
      rw [String.data_append, String.data_append, ih]
      simp [joinSep]

theorem data_pkg : ("pkg://" : String).data = ['p', 'k', 'g', ':', '/', '/'] := rfl

theorem data_nil' : ("" : String).data = [] := rfl

theorem data_slash : ("/" : String).data = ['/'] := rfl

theorem data_at : ("@" : String).data = ['@'] := rfl

theorem data_qm : ("?" : String).data = ['?'] := rfl

theorem data_eqs : ("=" : String).data = ['='] := rfl

theorem render_data (ty name : String) (ns ver : Option String)
    (quals : List (String × String)) :
    (Purl.render ⟨ty, ns, name, ver, quals⟩).data
      = "pkg://".data ++ (ty.data ++ (nsSuf ns
        ++ ('/' :: (name.data ++ (verSuf ver ++ qualSuf quals))))) := by
  cases ns <;> cases ver <;> by_cases hqe : quals.isEmpty <;>
    simp [Purl.render, nsSuf, verSuf, qualSuf, hqe, String.data_append,
      data_nil', data_slash, data_at, data_qm, List.append_assoc]

theorem purl_parse_render_aux {ty name : String} {ns ver : Option String}
    {quals : List (String × String)}
    (hty : noChars ['/', '@', '?'] ty = true)
    (hns : (match ns with
            | some n => noChars ['@', '?'] n
            | none => true) = true)
    (hname : noChars ['/', '@', '?'] name = true)
    (hver : (match ver with
             | some v => noChars ['?'] v
             | none => true) = true)
    (hqv : quals.all
      (fun kv => noChars ['=', '&'] kv.1 && noChars ['&'] kv.2) = true)
    (hsorted : sortedKeysB quals = true) :
    parsePurl (Purl.render ⟨ty, ns, name, ver, quals⟩) =
      some ⟨ty, ns, name, ver, quals⟩ := by
  have htyS : '/' ∉ ty.data := noChars_not_mem hty (by decide)
  have htyA : '@' ∉ ty.data := noChars_not_mem hty (by decide)
  have htyQ : '?' ∉ ty.data := noChars_not_mem hty (by decide)
  have hnameS : '/' ∉ name.data := noChars_not_mem hname (by decide)
  have hnameA : '@' ∉ name.data := noChars_not_mem hname (by decide)
  have hnameQ : '?' ∉ name.data := noChars_not_mem hname (by decide)
  have hnsA : '@' ∉ nsSuf ns := by
    cases ns with
    | none => simp [nsSuf]
    | some n => exact nm_cons (by decide) (noChars_not_mem hns (by decide))
  have hnsQ : '?' ∉ nsSuf ns := by
    cases ns with
    | none => simp [nsSuf]
    | some n => exact nm_cons (by decide) (noChars_not_mem hns (by decide))
  have hvsQ : '?' ∉ verSuf ver := by
    cases ver with
    | none => simp [verSuf]
    | some v => exact nm_cons (by decide) (noChars_not_mem hver (by decide))
  have hBq : '?' ∉ ty.data ++ (nsSuf ns ++ ('/' :: (name.data ++ verSuf ver))) :=
    nm_append htyQ (nm_append hnsQ (nm_cons (by decide)
      (nm_append hnameQ hvsQ)))
  have hBa : '@' ∉ ty.data ++ (nsSuf ns ++ ('/' :: name.data)) :=
    nm_append htyA (nm_append hnsA (nm_cons (by decide) hnameA))
  have hm : splitFirst '?'
      (ty.data ++ (nsSuf ns ++ ('/' :: (name.data
        ++ (verSuf ver ++ qualSuf quals)))))
      = (ty.data ++ (nsSuf ns ++ ('/' :: (name.data ++ verSuf ver))),
        if quals.isEmpty then none
        else some (joinStr "&" (quals.map renderQual)).data) := by
    by_cases hqe : quals.isEmpty
    · rw [show qualSuf quals = [] from by simp [qualSuf, hqe], if_pos hqe,
        List.append_nil]
      exact splitFirst_not_mem hBq
    · rw [show qualSuf quals
          = '?' :: (joinStr "&" (quals.map renderQual)).data from by
        simp [qualSuf, hqe], if_neg hqe]
      rw [show ty.data ++ (nsSuf ns ++ ('/' :: (name.data
          ++ (verSuf ver ++ '?' :: (joinStr "&" (quals.map renderQual)).data))))
          = (ty.data ++ (nsSuf ns ++ ('/' :: (name.data ++ verSuf ver))))
            ++ '?' :: (joinStr "&" (quals.map renderQual)).data from by
        simp [List.append_assoc]]
      exact splitFirst_append _ hBq
  have hpv : splitFirst '@'
      (ty.data ++ (nsSuf ns ++ ('/' :: (name.data ++ verSuf ver))))
      = (ty.data ++ (nsSuf ns ++ ('/' :: name.data)),
        ver.map String.data) := by
    cases ver with
    | none =>
      rw [show verSuf none = [] from rfl, List.append_nil]
      exact splitFirst_not_mem hBa
    | some v =>
      rw [show verSuf (some v) = '@' :: v.data from rfl]
      rw [show ty.data ++ (nsSuf ns ++ ('/' :: (name.data ++ '@' :: v.data)))
          = (ty.data ++ (nsSuf ns ++ ('/' :: name.data))) ++ '@' :: v.data
          from by simp [List.append_assoc]]
      exact splitFirst_append _ hBa
  have hqfin : (match (if quals.isEmpty then none
        else some (joinStr "&" (quals.map renderQual)).data : Option (List Char)) with
      | none => ([] : List (String × String))
      | some q => qualifiersOf ((splitAll '&' q).map parseQualPair))
      = quals := by
    by_cases hqe : quals.isEmpty
    · rw [if_pos hqe]
      rw [List.isEmpty_iff.mp hqe]
    · rw [if_neg hqe]
      show qualifiersOf ((splitAll '&'
        (joinStr "&" (quals.map renderQual)).data).map parseQualPair) = quals
      have hqne : quals ≠ [] := fun he => hqe (by simp [he])
      have hsplit : splitAll '&' (joinStr "&" (quals.map renderQual)).data
          = quals.map (fun kv => (renderQual kv).data) := by
        rw [joinStr_amp_data, List.map_map]
        refine splitAll_joinSep ?_ ?_
        · simp [hqne]
        · intro x hx
          rcases List.mem_map.mp hx with ⟨kv, hkv, rfl⟩
          have hkv2 := List.all_eq_true.mp hqv kv hkv
          rw [Bool.and_eq_true] at hkv2
          show '&' ∉ (String.data ∘ renderQual) kv
          have hdq : (String.data ∘ renderQual) kv
              = kv.1.data ++ '=' :: kv.2.data := by
            simp [renderQual, String.data_append, data_eqs]
          rw [hdq]
          exact nm_append (noChars_not_mem hkv2.1 (by decide))
            (nm_cons (by decide) (noChars_not_mem hkv2.2 (by decide)))
      rw [hsplit, List.map_map]
      have hid : ∀ kv ∈ quals,
          (parseQualPair ∘ fun kv => (renderQual kv).data) kv = kv := by
        intro kv hkv
        obtain ⟨k, v⟩ := kv
        have hkv2 := List.all_eq_true.mp hqv (k, v) hkv
        rw [Bool.and_eq_true] at hkv2
        have hkE : '=' ∉ k.data := noChars_not_mem hkv2.1 (by decide)
        show parseQualPair ((renderQual (k, v)).data) = (k, v)
        have hdq : (renderQual (k, v)).data = k.data ++ '=' :: v.data := by
          simp [renderQual, String.data_append, data_eqs]
        rw [hdq, parseQualPair, splitFirst_append _ hkE]
        simp [strMk_data]
      rw [List.map_congr_left hid]
      simp only [List.map_id, List.map_id']
      rw [qualifiersOf_sorted_id hsorted]
  have hvfin : (ver.map String.data).map String.mk = ver := by
    cases ver <;> simp [strMk_data]
  -- now unfold the parser
  rw [parsePurl.eq_def, render_data, dropPre_append]
  simp only [hm, hpv]
  cases ns with
  | none =>
    rw [show ty.data ++ (nsSuf none ++ ('/' :: name.data))
        = ty.data ++ '/' :: name.data from by simp [nsSuf]]
    rw [splitAll_append, splitAll_not_mem htyS, splitAll_not_mem hnameS]
    simp only [List.singleton_append, List.reverse_cons, List.reverse_nil,
      List.nil_append, List.isEmpty_cons]
    rw [hqfin]
    simp [strMk_data, hvfin]
  | some n =>
    rw [show ty.data ++ (nsSuf (some n) ++ ('/' :: name.data))
        = ty.data ++ '/' :: (n.data ++ '/' :: name.data) from by
      simp [nsSuf]]
    rw [splitAll_append, splitAll_append, splitAll_not_mem htyS,
      splitAll_not_mem hnameS]
    rcases hSN : splitAll '/' n.data with _ | ⟨s0, srest⟩
    · exact absurd hSN (splitAll_ne_nil '/' n.data)
    · simp only [List.singleton_append, List.cons_append, List.nil_append,
        List.reverse_cons, List.reverse_append, List.reverse_nil,
        List.append_assoc, List.singleton_append,
        isEmpty_append_single, Bool.false_eq_true, if_false]
      rw [hqfin]
      simp only [List.reverse_reverse]
      rw [← hSN, joinSep_splitAll]
      simp [strMk_data, hvfin]

theorem noChars_of_not_mem {bad : List Char} {l : List Char}
    (h : ∀ c ∈ bad, c ∉ l) : noChars bad (String.mk l) = true := by
  simp only [noChars, List.all_eq_true]
  intro c hc
  apply decide_eq_true
  intro hcb
  exact h c hcb hc

theorem parsePurl_wf {s : String} {p : Purl} (h : parsePurl s = some p) :
    p.wf = true := by
  rw [parsePurl.eq_def] at h
  split at h
  · exact absurd h (by simp)
  rename_i rest hdp
  simp only [] at h
  split at h
  case h_2 => exact absurd h (by simp)
  rename_i t r rs hsa
  split at h
  case h_1 => exact absurd h (by simp)
  rename_i nameSeg revNs hrev
  have hp := Option.some.inj h
  subst hp
  have hMainQ : '?' ∉ (splitFirst '?' rest).1 := (splitFirst_spec '?' rest).1
  have hPathA : '@' ∉ (splitFirst '@' (splitFirst '?' rest).1).1 :=
    (splitFirst_spec '@' (splitFirst '?' rest).1).1
  have hPathSub : ∀ ch ∈ (splitFirst '@' (splitFirst '?' rest).1).1,
      ch ∈ (splitFirst '?' rest).1 :=
    (splitFirst_spec '@' (splitFirst '?' rest).1).2.1
  have hPathQ : '?' ∉ (splitFirst '@' (splitFirst '?' rest).1).1 :=
    fun hc => hMainQ (hPathSub _ hc)
  have htMem : t ∈ splitAll '/' (splitFirst '@' (splitFirst '?' rest).1).1 := by
    rw [hsa]
    simp
  have hnameMem : nameSeg ∈
      splitAll '/' (splitFirst '@' (splitFirst '?' rest).1).1 := by
    rw [hsa]
    have : nameSeg ∈ (r :: rs).reverse := by
      rw [hrev]
      simp
    simp only [List.mem_reverse] at this
    simp [this]
  simp only [Purl.wf, Bool.and_eq_true]
  refine ⟨⟨⟨⟨⟨?_, ?_⟩, ?_⟩, ?_⟩, ?_⟩, ?_⟩
  · -- type
    refine noChars_of_not_mem ?_
    intro c hc hmem
    have hcp := mem_of_mem_splitAll htMem hmem
    rcases (by simpa using hc : c = '/' ∨ c = '@' ∨ c = '?') with rfl | rfl | rfl
    · exact not_mem_of_mem_splitAll htMem hmem
    · exact hPathA hcp
    · exact hPathQ hcp
  · -- namespace
    by_cases hre : revNs.isEmpty
    · simp [hre]
    · simp only [hre, Bool.false_eq_true, if_false]
      refine noChars_of_not_mem ?_
      intro c hc hmem
      rcases joinSep_chars hmem with rfl | ⟨x, hx, hcx⟩
      · simp at hc
      · have hx2 : x ∈ r :: rs := by
          rw [← List.mem_reverse, hrev]
          simp only [List.mem_reverse] at hx
          simp [hx]
        have hxs : x ∈ splitAll '/' (splitFirst '@' (splitFirst '?' rest).1).1 := by
          rw [hsa]
          simp [hx2]
        have hcp := mem_of_mem_splitAll hxs hcx
        rcases (by simpa using hc : c = '@' ∨ c = '?') with rfl | rfl
        · exact hPathA hcp
        · exact hPathQ hcp
  · -- name
    refine noChars_of_not_mem ?_
    intro c hc hmem
    have hcp := mem_of_mem_splitAll hnameMem hmem
    rcases (by simpa using hc : c = '/' ∨ c = '@' ∨ c = '?') with rfl | rfl | rfl
    · exact not_mem_of_mem_splitAll hnameMem hmem
    · exact hPathA hcp
    · exact hPathQ hcp
  · -- version
    rcases hv : (splitFirst '@' (splitFirst '?' rest).1).2 with _ | vd
    · rfl
    · refine noChars_of_not_mem ?_
      intro c hc hmem
      have hsub := (splitFirst_spec '@' (splitFirst '?' rest).1).2.2 vd hv
      rcases (by simpa using hc : c = '?') with rfl
      exact hMainQ (hsub _ hmem)
  · -- qualifier character sets
    rcases hq : (splitFirst '?' rest).2 with _ | q
    · rfl
    · rw [List.all_eq_true]
      intro kv hkv
      have hkv' := mem_qualifiersOf_sub hkv
      rcases List.mem_map.mp hkv' with ⟨chunk, hchunk, rfl⟩
      have hC : '&' ∉ chunk := not_mem_of_mem_splitAll hchunk
      rcases hpq : splitFirst '=' chunk with ⟨c1, c2opt⟩
      have h1 : '=' ∉ c1 := by
        have h2 := (splitFirst_spec '=' chunk).1
        rw [hpq] at h2
        exact h2
      have h1sub : ∀ ch ∈ c1, ch ∈ chunk := by
        have h2 := (splitFirst_spec '=' chunk).2.1
        rw [hpq] at h2
        exact h2
      simp only [parseQualPair, hpq, Bool.and_eq_true]
      constructor
      · refine noChars_of_not_mem ?_
        intro c hc hmem
        rcases (by simpa using hc : c = '=' ∨ c = '&') with rfl | rfl
        · exact h1 hmem
        · exact hC (h1sub _ hmem)
      · refine noChars_of_not_mem ?_
        intro c hc hmem
        rcases (by simpa using hc : c = '&') with rfl
        cases c2opt with
        | none => simp at hmem
        | some b =>
          have h2 := (splitFirst_spec '=' chunk).2.2 b (by rw [hpq])
          exact hC (h2 _ (by simpa using hmem))
  · -- sortedness of the parsed qualifier map
    rcases hq : (splitFirst '?' rest).2 with _ | q
    · rfl
    · exact sortedKeysB_of_pairwise (qualifiersOf_sorted _)

/-- C2 counterexample: the round-trip `parse(render(p)) = p` fails for a
`Purl` whose name contains a delimiter character. Rendering does not escape
`@`, so the purl with name `a@b` and no version renders to `pkg://t/a@b`,
which parses back as name `a` with version `b`. -/
theorem purl_roundtrip_counterexample :
    parsePurl (Purl.render ⟨"t", none, "a@b", none, []⟩)
        = some ⟨"t", none, "a", some "b", []⟩
      ∧ (some ⟨"t", none, "a", some "b", []⟩ : Option Purl)
        ≠ some ⟨"t", none, "a@b", none, []⟩ := by
  exact ⟨by decide, by decide⟩

/-- C2 (amended): for every purl whose components are free of the reserved
delimiter characters of the rendered form (`Purl.wf`), parsing the rendered
string yields the purl back; and every purl obtained by parsing is such a
purl, so parse-then-render is idempotent: re-parsing the render of a parsed
purl yields the same purl, making `render (parse s)` the canonical form of
a parsed string `s` (qualifiers sorted by key). -/
theorem purl_roundtrip :
    (∀ p : Purl, p.wf = true → parsePurl p.render = some p)
    ∧ (∀ (s : String) (p : Purl), parsePurl s = some p →
        parsePurl p.render = some p) := by
  have main : ∀ p : Purl, p.wf = true → parsePurl p.render = some p := by
    intro p h
    obtain ⟨ty, ns, name, ver, quals⟩ := p
    simp only [Purl.wf, Bool.and_eq_true] at h
    obtain ⟨⟨⟨⟨⟨hty, hns⟩, hname⟩, hver⟩, hqv⟩, hsorted⟩ := h
    exact purl_parse_render_aux hty hns hname hver hqv hsorted
  exact ⟨main, fun s p h => main p (parsePurl_wf h)⟩

/-- Witness for C2 at the spec's concrete purl. -/
theorem purl_roundtrip_witness :
    Purl.wf ⟨"maven", some "io.quarkus", "quarkus-core", some "1.2.3",
        [("foo", "bar")]⟩ = true
      ∧ parsePurl (Purl.render ⟨"maven", some "io.quarkus", "quarkus-core",
          some "1.2.3", [("foo", "bar")]⟩)
        = some ⟨"maven", some "io.quarkus", "quarkus-core", some "1.2.3",
            [("foo", "bar")]⟩
      ∧ parsePurl "pkg://maven/io.quarkus/quarkus-core@1.2.3?foo=bar"
        = some ⟨"maven", some "io.quarkus", "quarkus-core", some "1.2.3",
            [("foo", "bar")]⟩
      ∧ parsePurl (Purl.render ⟨"maven", some "io.quarkus", "quarkus-core",
          some "1.2.3", [("foo", "bar")]⟩)
        = some ⟨"maven", some "io.quarkus", "quarkus-core", some "1.2.3",
            [("foo", "bar")]⟩ := by
  refine ⟨by decide, purl_roundtrip.1 _ (by decide), by decide,
    purl_roundtrip.2 "pkg://maven/io.quarkus/quarkus-core@1.2.3?foo=bar" _
      (by decide)⟩

/-- C4: the SPDX-to-internal translation rewrites every containment-style
edge to point from dependent/child to parent, passes internally-named kinds
through unchanged, and silently drops every unmapped kind. -/
theorem spdx_relationship_translation (l r : String) :
    spdxRelTryFrom l .contains r = some (r, .containedBy, l)
    ∧ spdxRelTryFrom l .dependsOn r = some (r, .dependencyOf, l)
    ∧ spdxRelTryFrom l .describes r = some (r, .describedBy, l)
    ∧ spdxRelTryFrom l .descendantOf r = some (r, .ancestorOf, l)
    ∧ spdxRelTryFrom l .generates r = some (r, .generatedFrom, l)
    ∧ spdxRelTryFrom l .containedBy r = some (l, .containedBy, r)
    ∧ spdxRelTryFrom l .dependencyOf r = some (l, .dependencyOf, r)
    ∧ spdxRelTryFrom l .describedBy r = some (l, .describedBy, r)
    ∧ spdxRelTryFrom l .generatedFrom r = some (l, .generatedFrom, r)
    ∧ spdxRelTryFrom l .ancestorOf r = some (l, .ancestorOf, r)
    ∧ spdxRelTryFrom l .devDependencyOf r = some (l, .devDependencyOf, r)
    ∧ spdxRelTryFrom l .optionalDependencyOf r
        = some (l, .optionalDependencyOf, r)
    ∧ spdxRelTryFrom l .providedDependencyOf r
        = some (l, .providedDependencyOf, r)
    ∧ spdxRelTryFrom l .testDependencyOf r = some (l, .testDependencyOf, r)
    ∧ spdxRelTryFrom l .runtimeDependencyOf r
        = some (l, .runtimeDependencyOf, r)
    ∧ spdxRelTryFrom l .exampleOf r = some (l, .exampleOf, r)
    ∧ spdxRelTryFrom l .variantOf r = some (l, .variantOf, r)
    ∧ spdxRelTryFrom l .buildToolOf r = some (l, .buildToolOf, r)
    ∧ spdxRelTryFrom l .devToolOf r = some (l, .devToolOf, r)
    ∧ spdxRelTryFrom l .amends r = none
    ∧ spdxRelTryFrom l .buildDependencyOf r = none
    ∧ spdxRelTryFrom l .dataFileOf r = none
    ∧ spdxRelTryFrom l .patchFor r = none
    ∧ spdxRelTryFrom l .copyOf r = none
    ∧ spdxRelTryFrom l .other r = none := by
  repeat constructor

theorem validateRels_ok {sources : List String}
    {rels : List (String × Relationship × String)} {u : Unit}
    (h : validateRels sources rels = Except.ok u) :
    ∀ t ∈ rels, t.1 ∈ sources ∧ t.2.2 ∈ sources := by
  intro t ht
  rw [validateRels.eq_def] at h
  rcases hf : rels.find?
      (fun t => !(decide (t.1 ∈ sources) && decide (t.2.2 ∈ sources)))
    with _ | t2
  · have hall := List.find?_eq_none.mp hf t ht
    simpa using hall
  · rw [hf] at h
    simp at h

theorem validateRels_err {sources : List String}
    {rels : List (String × Relationship × String)}
    (h : ∃ t ∈ rels, t.1 ∉ sources ∨ t.2.2 ∉ sources) :
    ∃ n, validateRels sources rels
      = Except.error (ValError.invalidReference n) := by
  rcases hf : rels.find?
      (fun t => !(decide (t.1 ∈ sources) && decide (t.2.2 ∈ sources)))
    with _ | t2
  · exfalso
    rcases h with ⟨t, ht, hbad⟩
    have hall := List.find?_eq_none.mp hf t ht
    rcases hbad with hbad | hbad <;> simp [hbad] at hall
  · exact ⟨if t2.1 ∈ sources then t2.2.2 else t2.1, by
      rw [validateRels.eq_def, hf]⟩

/-- C6: when a referenced node-id resolves to neither the document root,
a package, nor a file, `ingest_spdx` fails with an `InvalidReference`
validation error (wrapped in `Generic`) and inserts nothing; consequently
after every successful ingest, every relationship's left and right node-id
resolves within the same SBOM or to the document root. -/
theorem spdx_relationship_closure :
    (∀ (sbomId : Nat) (doc : SpdxDoc) (res : IngestResult),
      ingestSpdx sbomId doc = Except.ok res →
      ∀ t ∈ res.relationships,
        t.1 ∈ references doc ∧ t.2.2 ∈ references doc)
    ∧ (∀ (sbomId : Nat) (doc : SpdxDoc),
      (∃ t ∈ spdxRels doc,
        t.1 ∉ references doc ∨ t.2.2 ∉ references doc) →
      ∃ n, ingestSpdx sbomId doc
        = Except.error (IngestError.generic (ValError.invalidReference n))) := by
  constructor
  · intro sbomId doc res hok t ht
    rw [ingestSpdx.eq_def] at hok
    simp only [] at hok
    rcases hv : validateRels (references doc) (spdxRels doc) with e | u
    · rw [hv] at hok
      simp at hok
    · rw [hv] at hok
      simp only [Except.ok.injEq] at hok
      subst hok
      exact validateRels_ok hv t ht
  · intro sbomId doc h
    rcases validateRels_err h with ⟨n, hn⟩
    refine ⟨n, ?_⟩
    rw [ingestSpdx.eq_def]
    simp only []
    rw [hn]

/-- Witness for C6: a well-referenced document ingests, its relationship
endpoints resolve; a document with a dangling reference fails with
`InvalidReference`. -/
theorem spdx_relationship_closure_witness :
    (∃ res, ingestSpdx 1 exDoc = Except.ok res
      ∧ ("SPDXRef-PKG-A", Relationship.describedBy, "SPDXRef-DOCUMENT")
          ∈ res.relationships
      ∧ "SPDXRef-PKG-A" ∈ references exDoc
      ∧ "SPDXRef-DOCUMENT" ∈ references exDoc)
    ∧ (∃ n, ingestSpdx 1 badDoc
        = Except.error (IngestError.generic (ValError.invalidReference n))) := by
  have hok : ingestSpdx 1 exDoc = Except.ok
      ⟨[("SPDXRef-PKG-A", Relationship.describedBy, "SPDXRef-DOCUMENT"),
        ("SPDXRef-PKG-B", Relationship.containedBy, "SPDXRef-PKG-A")],
       [("SPDXRef-PKG-A", "package-a", some "1.0"),
        ("SPDXRef-PKG-B", "package-b", some "2.0")],
       [], []⟩ := by decide
  have hmem : ("SPDXRef-PKG-A", Relationship.describedBy, "SPDXRef-DOCUMENT")
      ∈ (⟨[("SPDXRef-PKG-A", Relationship.describedBy, "SPDXRef-DOCUMENT"),
        ("SPDXRef-PKG-B", Relationship.containedBy, "SPDXRef-PKG-A")],
       [("SPDXRef-PKG-A", "package-a", some "1.0"),
        ("SPDXRef-PKG-B", "package-b", some "2.0")],
       [], []⟩ : IngestResult).relationships := by decide
  refine ⟨⟨_, hok, hmem,
    (spdx_relationship_closure.1 1 exDoc _ hok _ hmem).1,
    (spdx_relationship_closure.1 1 exDoc _ hok _ hmem).2⟩,
    spdx_relationship_closure.2 1 badDoc
      ⟨("SPDXRef-MISSING", Relationship.containedBy, "SPDXRef-PKG-A"),
        by decide, Or.inl (by decide)⟩⟩

/-- C9, evaluated on the failing input: for a document whose describes
edge comes from `document_describes`, the ingest produces the two expected
relationships but registers NO product — the walk pushes the document's
own identifier instead of the described node (spdx.rs lines 83-88), so
`PKG-A` never matches `product_packages`. With the same describes edge
given as an explicit `Describes` relationship, `PKG-A` is registered. -/
theorem spdx_describes_product_eval :
    (∃ res, ingestSpdx 1 exDoc = Except.ok res
      ∧ res.relationships
        = [("SPDXRef-PKG-A", Relationship.describedBy, "SPDXRef-DOCUMENT"),
           ("SPDXRef-PKG-B", Relationship.containedBy, "SPDXRef-PKG-A")]
      ∧ res.products = [])
    ∧ (∃ res, ingestSpdx 1 relDoc = Except.ok res
      ∧ res.relationships
        = [("SPDXRef-PKG-A", Relationship.describedBy, "SPDXRef-DOCUMENT"),
           ("SPDXRef-PKG-B", Relationship.containedBy, "SPDXRef-PKG-A")]
      ∧ res.products
        = [⟨"package-a", some "Acme", some ("1.0", 1)⟩]) := by
  constructor
  · exact ⟨⟨[("SPDXRef-PKG-A", Relationship.describedBy, "SPDXRef-DOCUMENT"),
        ("SPDXRef-PKG-B", Relationship.containedBy, "SPDXRef-PKG-A")],
       [("SPDXRef-PKG-A", "package-a", some "1.0"),
        ("SPDXRef-PKG-B", "package-b", some "2.0")],
       [], []⟩, by decide, by decide, by decide⟩
  · exact ⟨⟨[("SPDXRef-PKG-A", Relationship.describedBy, "SPDXRef-DOCUMENT"),
        ("SPDXRef-PKG-B", Relationship.containedBy, "SPDXRef-PKG-A")],
       [("SPDXRef-PKG-A", "package-a", some "1.0"),
        ("SPDXRef-PKG-B", "package-b", some "2.0")],
       [], [⟨"package-a", some "Acme", some ("1.0", 1)⟩]⟩,
       by decide, by decide, by decide⟩

theorem getField_setField (k : String) (v : Json)
    (fs : List (String × Json)) : getField k (setField k v fs) = v := by
  induction fs with
  | nil => simp [getField, setField]
  | cons hd t ih =>
    obtain ⟨k', v'⟩ := hd
    by_cases h : k' = k
    · simp [getField, setField, h]
    · simp [getField, setField, h, ih]

theorem setField_self {k : String} {fs : List (String × Json)}
    (h : getField k fs ≠ Json.null) :
    setField k (getField k fs) fs = fs := by
  induction fs with
  | nil => exact absurd rfl h
  | cons hd t ih =>
    obtain ⟨k', v'⟩ := hd
    by_cases h2 : k' = k
    · subst h2
      simp [getField, setField]
    · simp only [getField, setField, if_neg h2]
      rw [ih (by simpa [getField, h2] using h)]

theorem getKey_obj_of_arr {j : Json} {k : String} {pkgs : List Json}
    (h : j.getKey k = Json.arr pkgs) : ∃ fs, j = Json.obj fs := by
  cases j <;> first
  | exact ⟨_, rfl⟩
  | simp [Json.getKey] at h

theorem fixPackage_unchanged {P : String → Option String} {pkg : Json}
    (h : ∀ s, pkg.getKey "licenseDeclared" = Json.str s → P s = none) :
    fixPackage P pkg = (pkg, false, none) := by
  rw [fixPackage.eq_def]
  rcases hk : pkg.getKey "licenseDeclared" with _ | b | n | s | items | fs
  any_goals rfl
  simp [h s hk]

theorem fixPackage_changed_iff {P : String → Option String} {pkg : Json} :
    (fixPackage P pkg).2.1 = true
      ↔ ∃ s, pkg.getKey "licenseDeclared" = Json.str s ∧ (P s).isSome := by
  rw [fixPackage.eq_def]
  rcases hk : pkg.getKey "licenseDeclared" with _ | b | n | s | items | fs
  any_goals simp
  rcases hp : P s with _ | err <;> simp [hp]

theorem fixPackage_msg {P : String → Option String} (pkg : Json) :
    (fixPackage P pkg).2.2
      = match pkg.getKey "licenseDeclared" with
        | Json.str s => (P s).map
            (fun err =>
              "Replacing faulty SPDX license expression with NOASSERTION: "
                ++ err)
        | _ => none := by
  rw [fixPackage.eq_def]
  rcases hk : pkg.getKey "licenseDeclared" with _ | b | n | s | items | fs
  any_goals rfl
  rcases hp : P s with _ | err <;> simp [hp]

theorem getKey_obj_of_str {j : Json} {k s : String}
    (h : j.getKey k = Json.str s) : ∃ fs, j = Json.obj fs := by
  cases j <;> first
  | exact ⟨_, rfl⟩
  | simp [Json.getKey] at h

/-- C5: `fix_license` replaces every package's unparsable `licenseDeclared`
string with `NOASSERTION` and emits one warning per replacement to the
report sink; the changed flag is true exactly when some replacement
happened; when nothing fails to parse the document is returned unchanged
with flag false; and — since `NOASSERTION` itself parses — every
`licenseDeclared` string of the repaired document parses, so the document
still ingests. When the parser's error text mentions the faulty
expression, so does the emitted warning. -/
theorem spdx_license_repair (P : String → Option String) (j : Json) :
    ((fixLicense P j).2.1 = false → (fixLicense P j).1 = j)
    ∧ ∀ pkgs, j.getKey "packages" = Json.arr pkgs →
      ((fixLicense P j).1.getKey "packages"
          = Json.arr (pkgs.map (fun pkg => (fixPackage P pkg).1))
      ∧ (∀ pkg ∈ pkgs, ∀ s err,
          pkg.getKey "licenseDeclared" = Json.str s → P s = some err →
          (fixPackage P pkg).1.getKey "licenseDeclared"
            = Json.str "NOASSERTION")
      ∧ (∀ pkg ∈ pkgs,
          (∀ s, pkg.getKey "licenseDeclared" = Json.str s → P s = none) →
          (fixPackage P pkg).1 = pkg)
      ∧ ((fixLicense P j).2.1 = true ↔ ∃ pkg ∈ pkgs, ∃ s,
          pkg.getKey "licenseDeclared" = Json.str s ∧ (P s).isSome = true)
      ∧ (fixLicense P j).2.2 = pkgs.filterMap (fun pkg =>
          match pkg.getKey "licenseDeclared" with
          | Json.str s => (P s).map (fun err =>
              "Replacing faulty SPDX license expression with NOASSERTION: "
                ++ err)
          | _ => none)
      ∧ (P "NOASSERTION" = none →
          ∀ pkg' ∈ pkgs.map (fun pkg => (fixPackage P pkg).1), ∀ s,
          pkg'.getKey "licenseDeclared" = Json.str s → P s = none)
      ∧ ((∀ s e, P s = some e → List.IsInfix s.data e.data) →
          ∀ m ∈ (fixLicense P j).2.2, ∃ pkg ∈ pkgs, ∃ s,
          pkg.getKey "licenseDeclared" = Json.str s
            ∧ List.IsInfix s.data m.data)) := by
  constructor
  · -- unchanged when the flag is false
    intro hch
    rw [fixLicense.eq_def] at hch ⊢
    rcases hpk : j.getKey "packages" with _ | b | n | s | pkgs | fs
    any_goals rfl
    rw [hpk] at hch
    simp only [List.any_eq_false, List.mem_map, forall_exists_index, and_imp,
      forall_apply_eq_imp_iff₂] at hch
    have hun : ∀ pkg ∈ pkgs, (fixPackage P pkg).1 = pkg := by
      intro pkg hpkg
      have hfa : (fixPackage P pkg).2.1 = false :=
        Bool.eq_false_iff.mpr (hch pkg hpkg)
      have hnone : ∀ s, pkg.getKey "licenseDeclared" = Json.str s →
          P s = none := by
        intro s hs
        by_contra hc
        have : (fixPackage P pkg).2.1 = true :=
          fixPackage_changed_iff.mpr ⟨s, hs, Option.isSome_iff_ne_none.mpr hc⟩
        rw [this] at hfa
        cases hfa
      rw [fixPackage_unchanged hnone]
    have hmap : (pkgs.map (fixPackage P)).map (fun r => r.1) = pkgs := by
      rw [List.map_map]
      have hcg := List.map_congr_left (l := pkgs)
        (f := (fun r : Json × Bool × Option String => r.1) ∘ fixPackage P)
        (g := fun pkg => pkg) hun
      rw [hcg, List.map_id']
    show j.setKey "packages"
      (Json.arr ((pkgs.map (fixPackage P)).map (fun r => r.1))) = j
    rw [hmap]
    rcases getKey_obj_of_arr hpk with ⟨fs, rfl⟩
    have hgf : getField "packages" fs = Json.arr pkgs := hpk
    show Json.obj (setField "packages" (Json.arr pkgs) fs) = Json.obj fs
    rw [← hgf, setField_self (by rw [hgf]; intro hc; cases hc)]
  · intro pkgs hpk
    have hfl : fixLicense P j
        = (j.setKey "packages"
            (Json.arr ((pkgs.map (fixPackage P)).map (fun r => r.1))),
          (pkgs.map (fixPackage P)).any (fun r => r.2.1),
          (pkgs.map (fixPackage P)).filterMap (fun r => r.2.2)) := by
      rw [fixLicense.eq_def, hpk]
    refine ⟨?_, ?_, ?_, ?_, ?_, ?_, ?_⟩
    · rw [hfl, List.map_map]
      rcases getKey_obj_of_arr hpk with ⟨fs, rfl⟩
      show getField "packages" (setField "packages" _ fs) = _
      rw [getField_setField]
      rfl
    · intro pkg hpkg s err hk hperr
      rcases getKey_obj_of_str hk with ⟨fs, rfl⟩
      simp only [fixPackage.eq_def, hk, hperr]
      show getField "licenseDeclared"
        (setField "licenseDeclared" (Json.str "NOASSERTION") fs) = _
      rw [getField_setField]
    · exact fun pkg _ h => by rw [fixPackage_unchanged h]
    · rw [hfl]
      simp only [List.any_eq_true, List.mem_map]
      constructor
      · rintro ⟨r, ⟨pkg, hpkg, rfl⟩, hr⟩
        exact ⟨pkg, hpkg, fixPackage_changed_iff.mp hr⟩
      · rintro ⟨pkg, hpkg, s, hs, hsome⟩
        exact ⟨fixPackage P pkg, ⟨pkg, hpkg, rfl⟩,
          fixPackage_changed_iff.mpr ⟨s, hs, hsome⟩⟩
    · rw [hfl]
      show (pkgs.map (fixPackage P)).filterMap (fun r => r.2.2) = _
      rw [List.filterMap_map]
      have hfn : ((fun r : Json × Bool × Option String => r.2.2)
          ∘ fixPackage P) = fun pkg =>
          match pkg.getKey "licenseDeclared" with
          | Json.str s => (P s).map (fun err =>
              "Replacing faulty SPDX license expression with NOASSERTION: "
                ++ err)
          | _ => none := funext (fun pkg => fixPackage_msg pkg)
      rw [hfn]
    · intro hNA pkg' hp' s' hk'
      rcases List.mem_map.mp hp' with ⟨pkg, hpkg, rfl⟩
      rcases hk : pkg.getKey "licenseDeclared" with _ | b | n | s | items | fs
      case str =>
        rcases hp2 : P s with _ | err
        · simp only [fixPackage.eq_def, hk, hp2] at hk'
          cases hk'
          exact hp2
        · simp only [fixPackage.eq_def, hk, hp2] at hk'
          rcases getKey_obj_of_str hk with ⟨fs, rfl⟩
          have h2 : getField "licenseDeclared"
              (setField "licenseDeclared" (Json.str "NOASSERTION") fs)
              = Json.str s' := hk'
          rw [getField_setField] at h2
          cases h2
          exact hNA
      all_goals
        simp only [fixPackage.eq_def, hk] at hk'
        cases hk'
    · intro hM m hm
      rw [hfl] at hm
      rcases List.mem_filterMap.mp hm with ⟨r, hr, hrm⟩
      rcases List.mem_map.mp hr with ⟨pkg, hpkg, rfl⟩
      rw [fixPackage_msg] at hrm
      rcases hk : pkg.getKey "licenseDeclared" with _ | b | n | s | items | fs
      case str =>
        rw [hk] at hrm
        rcases hp2 : P s with _ | err
        · simp [hp2] at hrm
        · simp only [hp2, Option.map_some', Option.some.injEq] at hrm
          rcases hM s err hp2 with ⟨u, w, huw⟩
          refine ⟨pkg, hpkg, s, hk, ?_⟩
          refine ⟨("Replacing faulty SPDX license expression with NOASSERTION: ").data
            ++ u, w, ?_⟩
          rw [← hrm, String.data_append, ← huw]
          simp [List.append_assoc]
      all_goals
        rw [hk] at hrm
        simp at hrm

/-- Witness for C5 at the spec's scenario. -/
theorem spdx_license_repair_witness :
    exLicenseParse "NOASSERTION" = none
    ∧ (fixLicense exLicenseParse exSpdxJson).2.1 = true
    ∧ (fixLicense exLicenseParse exSpdxJson).2.2
      = ["Replacing faulty SPDX license expression with NOASSERTION: invalid SPDX expression: GPL-2.0+ WITH broken"]
    ∧ (fixPackage exLicenseParse
        (Json.obj [("name", Json.str "pkg-a"),
          ("licenseDeclared", Json.str "GPL-2.0+ WITH broken")])).1.getKey
        "licenseDeclared" = Json.str "NOASSERTION" := by
  refine ⟨rfl, ?_, ?_, ?_⟩
  · exact ((spdx_license_repair exLicenseParse exSpdxJson).2 _
      rfl).2.2.2.1.mpr
      ⟨Json.obj [("name", Json.str "pkg-a"),
        ("licenseDeclared", Json.str "GPL-2.0+ WITH broken")],
       List.mem_cons_self _ _, "GPL-2.0+ WITH broken", rfl, rfl⟩
  · exact (((spdx_license_repair exLicenseParse exSpdxJson).2 _
      rfl).2.2.2.2.1).trans (by decide)
  · exact ((spdx_license_repair exLicenseParse exSpdxJson).2 _ rfl).2.1
      (Json.obj [("name", Json.str "pkg-a"),
        ("licenseDeclared", Json.str "GPL-2.0+ WITH broken")])
      (List.mem_cons_self _ _) "GPL-2.0+ WITH broken"
      "invalid SPDX expression: GPL-2.0+ WITH broken" rfl rfl

theorem updateImporter_ok {db : ImporterDb} {name : String}
    {expected : Option String} (fresh : String)
    (f : ImporterRow → ImporterRow)
    (h : ∃ r ∈ db.importers, rowMatches name expected r = true) :
    updateImporter db name expected fresh f
      = Except.ok { db with importers := db.importers.map (fun r =>
          if rowMatches name expected r then f { r with revision := fresh }
          else r) } := by
  have hc : db.importers.countP (rowMatches name expected) ≠ 0 := by
    rcases h with ⟨r, hr, hm⟩
    have hpos : 0 < db.importers.countP (rowMatches name expected) :=
      List.countP_pos.mpr ⟨r, hr, hm⟩
    omega
  rw [updateImporter.eq_def]
  simp only []
  rw [if_neg hc]

theorem updateImporter_noMatch {db : ImporterDb} {name : String}
    {expected : Option String} {fresh : String} {f : ImporterRow → ImporterRow}
    (h : ∀ r ∈ db.importers, rowMatches name expected r = false) :
    updateImporter db name expected fresh f
      = if db.importers.countP (fun r => decide (r.name = name)) = 0
        then Except.error (ImporterError.notFound name)
        else Except.error ImporterError.midAirCollision := by
  have hc : db.importers.countP (rowMatches name expected) = 0 :=
    List.countP_eq_zero.mpr (fun r hr => by rw [h r hr]; exact Bool.false_ne_true)
  rw [updateImporter.eq_def]
  simp only []
  rw [if_pos hc]

theorem updateImporter_ok_inv {db : ImporterDb} {name : String}
    {expected : Option String} {fresh : String}
    {f : ImporterRow → ImporterRow} {db2 : ImporterDb}
    (h : updateImporter db name expected fresh f = Except.ok db2) :
    db2.importers = db.importers.map (fun r =>
      if rowMatches name expected r then f { r with revision := fresh }
      else r)
    ∧ db2.reports = db.reports := by
  rw [updateImporter.eq_def] at h
  simp only [] at h
  by_cases hc : db.importers.countP (rowMatches name expected) = 0
  · rw [if_pos hc] at h
    split at h <;> simp at h
  · rw [if_neg hc] at h
    injection h with h2
    rw [← h2]
    exact ⟨rfl, rfl⟩

theorem exceptMap_ok {E A B : Type} {x : Except E A} {g : A → B} {b : B}
    (h : Except.map g x = Except.ok b) :
    ∃ a, x = Except.ok a ∧ b = g a := by
  cases x with
  | error e => simp [Except.map] at h
  | ok a =>
    refine ⟨a, rfl, ?_⟩
    simp only [Except.map] at h
    injection h with h2
    exact h2.symm

/-- C8: every importer mutation applies only to rows whose name matches
and, when `expected_revision` is given, whose stored revision equals it;
matching rows get the fresh revision; when zero rows match, the service
disambiguates into `NotFound` (no importer of that name) or
`MidAirCollision`; hence two sequential updates with the same stale
expected revision yield one success and one `MidAirCollision`. -/
theorem importer_revision_cas :
    (∀ (db : ImporterDb) (name : String) (expected : Option String)
      (fresh cfg : String) (db2 : ImporterDb),
      update_configuration db name expected fresh cfg = Except.ok db2 →
      (∀ r ∈ db.importers, rowMatches name expected r = false →
        r ∈ db2.importers)
      ∧ ∀ r ∈ db2.importers, r ∈ db.importers
        ∨ ∃ r0 ∈ db.importers, rowMatches name expected r0 = true
          ∧ r = { r0 with revision := fresh, configuration := cfg })
    ∧ (∀ (db : ImporterDb) (name : String) (expected : Option String)
      (fresh cfg : String),
      (∀ r ∈ db.importers, rowMatches name expected r = false) →
      update_configuration db name expected fresh cfg
        = if db.importers.countP (fun r => decide (r.name = name)) = 0
          then Except.error (ImporterError.notFound name)
          else Except.error ImporterError.midAirCollision)
    ∧ (∀ (db : ImporterDb) (name r0 fresh1 fresh2 cfg1 cfg2 : String),
      (∀ r ∈ db.importers, r.name = name → r.revision = r0) →
      (∃ r ∈ db.importers, r.name = name) →
      fresh1 ≠ r0 →
      ∃ db1,
        update_configuration db name (some r0) fresh1 cfg1 = Except.ok db1
        ∧ (∀ r ∈ db1.importers, r.name = name → r.revision = fresh1)
        ∧ update_configuration db1 name (some r0) fresh2 cfg2
          = Except.error ImporterError.midAirCollision) := by
  refine ⟨?_, ?_, ?_⟩
  · intro db name expected fresh cfg db2 h
    obtain ⟨himp, _⟩ := updateImporter_ok_inv h
    constructor
    · intro r hr hm
      rw [himp]
      exact List.mem_map.mpr ⟨r, hr, by simp [hm]⟩
    · intro r hr
      rw [himp] at hr
      rcases List.mem_map.mp hr with ⟨r0, hr0, rfl⟩
      by_cases hm : rowMatches name expected r0 = true
      · right
        exact ⟨r0, hr0, hm, by simp [hm]⟩
      · left
        simpa [hm] using hr0
  · intro db name expected fresh cfg h
    exact updateImporter_noMatch h
  · intro db name r0 fresh1 fresh2 cfg1 cfg2 hAll hEx hne
    have hmatch : ∃ r ∈ db.importers, rowMatches name (some r0) r = true := by
      rcases hEx with ⟨r, hr, hn⟩
      exact ⟨r, hr, by simp [rowMatches, hn, hAll r hr hn]⟩
    obtain ⟨db1, h1⟩ : ∃ db1,
        update_configuration db name (some r0) fresh1 cfg1
          = Except.ok db1 :=
      ⟨_, updateImporter_ok fresh1
        (fun r => { r with configuration := cfg1 }) hmatch⟩
    obtain ⟨himp, hrep⟩ := updateImporter_ok_inv h1
    have hrev : ∀ r ∈ db1.importers, r.name = name →
        r.revision = fresh1 := by
      intro r hr hn
      rw [himp] at hr
      rcases List.mem_map.mp hr with ⟨r0', hr0', rfl⟩
      by_cases hm : rowMatches name (some r0) r0' = true
      · simp [hm]
      · exfalso
        rw [if_neg hm] at hn
        exact hm (by simp [rowMatches, hn, hAll r0' hr0' hn])
    have hcnt : db1.importers.countP
        (fun r => decide (r.name = name)) ≠ 0 := by
      rcases hEx with ⟨r, hr, hn⟩
      have hpos : 0 < db1.importers.countP
          (fun r => decide (r.name = name)) := by
        apply List.countP_pos.mpr
        rw [himp]
        refine ⟨_, List.mem_map.mpr ⟨r, hr, rfl⟩, ?_⟩
        by_cases hm : rowMatches name (some r0) r = true <;> simp [hm, hn]
      omega
    refine ⟨db1, h1, hrev, ?_⟩
    have hnom : ∀ r ∈ db1.importers,
        rowMatches name (some r0) r = false := by
      intro r hr
      rw [Bool.eq_false_iff]
      intro hm
      simp only [rowMatches, Bool.and_eq_true, decide_eq_true_eq] at hm
      have h2 := hm.2
      rw [hrev r hr hm.1] at h2
      exact hne h2
    show updateImporter db1 name (some r0) fresh2
      (fun r => { r with configuration := cfg2 })
      = Except.error ImporterError.midAirCollision
    rw [updateImporter_noMatch hnom, if_neg hcnt]

/-- C7: `update_finish`, when it succeeds, sets `state = Waiting`, stores
the given `last_run` and `last_error`, sets `last_change` to the current
time, sets `last_success` exactly when `last_error` is absent, rotates the
revision, and inserts one `ImporterReport` row when a report is provided;
after `update_start` then `update_finish` with no error and the run
timestamped at the finish instant, the named row has `state = Waiting`,
`last_success = last_run = last_change`, a fresh revision, and exactly one
new report row whose `creation` matches. All `now_utc()` calls within one
operation are modelled as the same instant. -/
theorem importer_update_finish :
    (∀ (db : ImporterDb) (name : String) (expected : Option String)
      (fresh id : String) (lastRun : Nat) (lastError : Option String)
      (rep : String) (now : Nat) (db2 : ImporterDb),
      update_finish db name expected fresh id lastRun lastError (some rep)
        now = Except.ok db2 →
      db2.reports = db.reports ++ [⟨id, name, now, lastError, rep⟩]
      ∧ ∀ r ∈ db2.importers, r ∈ db.importers
        ∨ ∃ r0 ∈ db.importers, rowMatches name expected r0 = true
          ∧ r.state = ImpState.waiting
          ∧ r.lastRun = some lastRun
          ∧ r.lastError = lastError
          ∧ r.lastChange = now
          ∧ (lastError = none → r.lastSuccess = some now)
          ∧ (lastError ≠ none → r.lastSuccess = r0.lastSuccess)
          ∧ r.revision = fresh)
    ∧ (∀ (db : ImporterDb) (name r0 fresh1 fresh2 id rep : String)
      (now1 now2 : Nat),
      (∀ r ∈ db.importers, r.name = name → r.revision = r0) →
      (∃ r ∈ db.importers, r.name = name) →
      fresh2 ≠ fresh1 →
      ∃ db1 db2,
        update_start db name (some r0) fresh1 now1 = Except.ok db1
        ∧ update_finish db1 name (some fresh1) fresh2 id now2 none
            (some rep) now2 = Except.ok db2
        ∧ (∀ r ∈ db2.importers, r.name = name →
            r.state = ImpState.waiting
            ∧ r.lastRun = some now2
            ∧ r.lastError = none
            ∧ r.lastSuccess = some now2
            ∧ r.lastChange = now2
            ∧ r.revision = fresh2
            ∧ r.revision ≠ fresh1)
        ∧ db2.reports = db.reports ++ [⟨id, name, now2, none, rep⟩]) := by
  constructor
  · intro db name expected fresh id lastRun lastError rep now db2 h
    rcases exceptMap_ok h with ⟨dbm, hu, hg⟩
    obtain ⟨himp, hrep⟩ := updateImporter_ok_inv hu
    subst hg
    constructor
    · show dbm.reports ++ [⟨id, name, now, lastError, rep⟩]
        = db.reports ++ [⟨id, name, now, lastError, rep⟩]
      rw [hrep]
    · intro r hr
      have hr2 : r ∈ dbm.importers := hr
      rw [himp] at hr2
      rcases List.mem_map.mp hr2 with ⟨r0, hr0, rfl⟩
      by_cases hm : rowMatches name expected r0 = true
      · right
        refine ⟨r0, hr0, hm, ?_⟩
        simp only [if_pos hm]
        rcases lastError with _ | e <;> simp
      · left
        simpa [hm] using hr0
  · intro db name r0 fresh1 fresh2 id rep now1 now2 hAll hEx hne
    have hmatch1 : ∃ r ∈ db.importers, rowMatches name (some r0) r = true := by
      rcases hEx with ⟨r, hr, hn⟩
      exact ⟨r, hr, by simp [rowMatches, hn, hAll r hr hn]⟩
    obtain ⟨db1, h1⟩ : ∃ db1,
        update_start db name (some r0) fresh1 now1 = Except.ok db1 :=
      ⟨_, updateImporter_ok fresh1
        (fun r => { r with lastChange := now1, state := ImpState.running })
        hmatch1⟩
    obtain ⟨himp1, hrep1⟩ := updateImporter_ok_inv h1
    have hrev1 : ∀ r ∈ db1.importers, r.name = name →
        r.revision = fresh1 := by
      intro r hr hn
      rw [himp1] at hr
      rcases List.mem_map.mp hr with ⟨r0', hr0', rfl⟩
      by_cases hm : rowMatches name (some r0) r0' = true
      · simp [hm]
      · exfalso
        rw [if_neg hm] at hn
        exact hm (by simp [rowMatches, hn, hAll r0' hr0' hn])
    have hname1 : ∃ r ∈ db1.importers, r.name = name := by
      rcases hEx with ⟨r, hr, hn⟩
      refine ⟨_, by rw [himp1]; exact List.mem_map.mpr ⟨r, hr, rfl⟩, ?_⟩
      by_cases hm : rowMatches name (some r0) r = true <;> simp [hm, hn]
    have hmatch2 : ∃ r ∈ db1.importers,
        rowMatches name (some fresh1) r = true := by
      rcases hname1 with ⟨r, hr, hn⟩
      exact ⟨r, hr, by simp [rowMatches, hn, hrev1 r hr hn]⟩
    have hfin := updateImporter_ok fresh2 (fun r =>
      let r2 := { r with
        lastError := (none : Option String)
        lastRun := some now2
        state := ImpState.waiting
        lastChange := now2 }
      if (none : Option String).isNone then { r2 with lastSuccess := some now2 }
      else r2) hmatch2
    have h2 : update_finish db1 name (some fresh1) fresh2 id now2 none
        (some rep) now2
        = Except.map (fun dbx => ({ dbx with
            reports := dbx.reports ++ [⟨id, name, now2, none, rep⟩] } :
            ImporterDb))
          (updateImporter db1 name (some fresh1) fresh2 (fun r =>
            let r2 := { r with
              lastError := (none : Option String)
              lastRun := some now2
              state := ImpState.waiting
              lastChange := now2 }
            if (none : Option String).isNone
            then { r2 with lastSuccess := some now2 }
            else r2)) := rfl
    rw [hfin] at h2
    simp only [Except.map] at h2
    refine ⟨db1, _, h1, h2, ?_, ?_⟩
    · intro r hr hn
      have hr2 : r ∈ (db1.importers.map (fun r =>
          if rowMatches name (some fresh1) r then
            (fun r =>
              let r2 := { r with
                lastError := (none : Option String)
                lastRun := some now2
                state := ImpState.waiting
                lastChange := now2 }
              if (none : Option String).isNone
              then { r2 with lastSuccess := some now2 }
              else r2) { r with revision := fresh2 }
          else r)) := hr
      rcases List.mem_map.mp hr2 with ⟨rmid, hmid, rfl⟩
      by_cases hm : rowMatches name (some fresh1) rmid = true
      · simp only [if_pos hm]
        exact ⟨rfl, rfl, rfl, rfl, rfl, rfl, hne⟩
      · exfalso
        rw [if_neg hm] at hn
        exact hm (by simp [rowMatches, hn, hrev1 rmid hmid hn])
    · show db1.reports ++ [⟨id, name, now2, none, rep⟩]
        = db.reports ++ [⟨id, name, now2, none, rep⟩]
      rw [hrep1]

/-- Witness for C8: on a concrete one-row database, two sequential
`update_configuration` calls with the same stale revision give one success
and one `MidAirCollision`. -/
theorem importer_revision_cas_witness :
    (∀ r ∈ exImporterDb.importers, r.name = "osv" → r.revision = "rev-0")
    ∧ (∃ r ∈ exImporterDb.importers, r.name = "osv")
    ∧ ("rev-1" : String) ≠ "rev-0"
    ∧ ∃ db1,
        update_configuration exImporterDb "osv" (some "rev-0") "rev-1"
          "cfg-1" = Except.ok db1
        ∧ (∀ r ∈ db1.importers, r.name = "osv" → r.revision = "rev-1")
        ∧ update_configuration db1 "osv" (some "rev-0") "rev-2" "cfg-2"
          = Except.error ImporterError.midAirCollision :=
  ⟨by decide, by decide, by decide,
    importer_revision_cas.2.2 exImporterDb "osv" "rev-0" "rev-1" "rev-2"
      "cfg-1" "cfg-2" (by decide) (by decide) (by decide)⟩

/-- Witness for C7: the importer lifecycle on a concrete one-row
database. -/
theorem importer_update_finish_witness :
    (∀ r ∈ exImporterDb.importers, r.name = "osv" → r.revision = "rev-0")
    ∧ (∃ r ∈ exImporterDb.importers, r.name = "osv")
    ∧ ("rev-2" : String) ≠ "rev-1"
    ∧ ∃ db1 db2,
        update_start exImporterDb "osv" (some "rev-0") "rev-1" 3
          = Except.ok db1
        ∧ update_finish db1 "osv" (some "rev-1") "rev-2" "id-1" 5 none
            (some "report-json") 5 = Except.ok db2
        ∧ (∀ r ∈ db2.importers, r.name = "osv" →
            r.state = ImpState.waiting
            ∧ r.lastRun = some 5
            ∧ r.lastError = none
            ∧ r.lastSuccess = some 5
            ∧ r.lastChange = 5
            ∧ r.revision = "rev-2"
            ∧ r.revision ≠ "rev-1")
        ∧ db2.reports = exImporterDb.reports
            ++ [⟨"id-1", "osv", 5, none, "report-json"⟩] :=
  ⟨by decide, by decide, by decide,
    importer_update_finish.2 exImporterDb "osv" "rev-0" "rev-1" "rev-2"
      "id-1" "report-json" 3 5 (by decide) (by decide) (by decide)⟩
